import Mathlib

/-!
Verification of the ANCF1 block-compressed container format
(`ancf_core`: `format.rs`, `writer.rs`, `reader.rs`; `ancf_codecs`:
`passthrough.rs`).

Files are modelled as `List Nat` of byte values; machine integers are
`Nat` with explicit `% 2 ^ w` truncation at the points where the Rust
source performs a narrowing `as` cast (`as u16` on the sidecar length,
`as u32` on payload lengths).  The external `xxh3_64` hash is an opaque
parameter `hash : List Nat → Nat`; theorems that depend on the stored
8-byte checksum assume its values fit in a `u64`, which is true of the
real function by type.  Fallible operations return
`Except AncfError _`; the error constructors follow the error taxonomy
(anyhow errors in the source carry messages, classified here by site).
-/

namespace Ancf

/-- Little-endian encoding of `n` into `w` bytes, modelling Rust's
`to_le_bytes` (truncates at `2 ^ (8 * w)`). -/
def toLEBytes : Nat → Nat → List Nat
  | 0, _ => []
  | w + 1, n => n % 256 :: toLEBytes w (n / 256)

/-- Little-endian decoding, modelling Rust's `from_le_bytes`. -/
def fromLEBytes : List Nat → Nat
  | [] => 0
  | b :: bs => b + 256 * fromLEBytes bs

/-- Error taxonomy of the reader/writer (the anyhow error classes of the
source, one constructor per distinct failure site). -/
inductive AncfError where
  | ioError
  | invalidMagic
  | unsupportedVersion
  | codecMismatch
  | outOfRange
  | checksumMismatch
  | metadataLenMismatch
  | sizeMismatch
  | codecError
  deriving DecidableEq, Repr

-- ── Constants (`format.rs`) ───────────────────────────────────────────────
/-- `MAGIC`: 14 bytes, `"ANCF1\n"` followed by 8 null bytes. -/
def MAGIC : List Nat := [65, 78, 67, 70, 49, 10, 0, 0, 0, 0, 0, 0, 0, 0]

/-- `HEADER_SIZE` -/
def HEADER_SIZE : Nat := 56

/-- `BLOCK_ENTRY_SIZE` -/
def BLOCK_ENTRY_SIZE : Nat := 32

/-- `FOOTER_SIZE` -/
def FOOTER_SIZE : Nat := 8

/-- `FLAG_HAS_CHECKSUM` -/
def FLAG_HAS_CHECKSUM : Nat := 1

/-- `FLAG_PER_BLOCK_META` -/
def FLAG_PER_BLOCK_META : Nat := 2

/-- `CODEC_PASSTHROUGH` -/
def CODEC_PASSTHROUGH : Nat := 0

-- ── Header (`format.rs`, `Ancf1Header`) ───────────────────────────────────
/-- Decoded representation of the 56-byte ANCF1 file header. -/
structure Ancf1Header where
  version : Nat
  codec_id : Nat
  block_size : Nat
  block_count : Nat
  flags : Nat
  deriving DecidableEq, Repr

/-- `Ancf1Header::to_bytes`: serialize to exactly `HEADER_SIZE` bytes. -/
def Ancf1Header.toBytes (h : Ancf1Header) : List Nat :=
  MAGIC ++ toLEBytes 2 h.version ++ toLEBytes 2 h.codec_id ++
    toLEBytes 4 h.block_size ++ toLEBytes 8 h.block_count ++
    toLEBytes 8 h.flags ++ List.replicate 18 0

/-- `Ancf1Header::from_bytes`: deserialize from `HEADER_SIZE` bytes,
checking the magic. -/
def Ancf1Header.fromBytes (buf : List Nat) : Except AncfError Ancf1Header :=
  if buf.take 14 = MAGIC then
    .ok { version := fromLEBytes ((buf.drop 14).take 2)
          codec_id := fromLEBytes ((buf.drop 16).take 2)
          block_size := fromLEBytes ((buf.drop 18).take 4)
          block_count := fromLEBytes ((buf.drop 22).take 8)
          flags := fromLEBytes ((buf.drop 30).take 8) }
  else .error .invalidMagic

/-- `Ancf1Header::has_flag` -/
def Ancf1Header.hasFlag (h : Ancf1Header) (flag : Nat) : Bool :=
  h.flags &&& flag != 0

-- ── Block index entry (`format.rs`, `BlockEntry`) ─────────────────────────
/-- One entry in the block index. -/
structure BlockEntry where
  offset : Nat
  compressed_len : Nat
  raw_len : Nat
  checksum : Nat
  metadata_len : Nat
  deriving DecidableEq, Repr

/-- `BlockEntry::to_bytes`: serialize to exactly `BLOCK_ENTRY_SIZE` bytes. -/
def BlockEntry.toBytes (e : BlockEntry) : List Nat :=
  toLEBytes 8 e.offset ++ toLEBytes 4 e.compressed_len ++
    toLEBytes 4 e.raw_len ++ toLEBytes 8 e.checksum ++
    toLEBytes 2 e.metadata_len ++ List.replicate 6 0

/-- `BlockEntry::from_bytes`: deserialize from `BLOCK_ENTRY_SIZE` bytes
(the source's `try_into` on fixed-width slices cannot fail). -/
def BlockEntry.fromBytes (buf : List Nat) : BlockEntry :=
  { offset := fromLEBytes (buf.take 8)
    compressed_len := fromLEBytes ((buf.drop 8).take 4)
    raw_len := fromLEBytes ((buf.drop 12).take 4)
    checksum := fromLEBytes ((buf.drop 16).take 8)
    metadata_len := fromLEBytes ((buf.drop 24).take 2) }

/-- In-range field bounds under which a header decodes back to itself
(the Rust fields are `u16`/`u16`/`u32`/`u64`/`u64` by type). -/
def Ancf1Header.InRange (h : Ancf1Header) : Prop :=
  h.version < 2 ^ 16 ∧ h.codec_id < 2 ^ 16 ∧ h.block_size < 2 ^ 32 ∧
    h.block_count < 2 ^ 64 ∧ h.flags < 2 ^ 64

/-- In-range field bounds under which a block entry decodes back to
itself (the Rust fields are `u64`/`u32`/`u32`/`u64`/`u16` by type). -/
def BlockEntry.InRange (e : BlockEntry) : Prop :=
  e.offset < 2 ^ 64 ∧ e.compressed_len < 2 ^ 32 ∧ e.raw_len < 2 ^ 32 ∧
    e.checksum < 2 ^ 64 ∧ e.metadata_len < 2 ^ 16

-- ── Codec abstraction (`codec.rs`) ────────────────────────────────────────
/-- The `Codec` trait.  `compress_block` takes the raw block and returns
the compressed payload together with the sidecar it wrote into the
(initially empty) `BlockMeta`; `decompress_block` takes the payload and
the sidecar.  `none` models an internal codec failure (`anyhow` error
from the codec, class `CodecError`). -/
structure Codec where
  id : Nat
  name : String
  compress_block : List Nat → Option (List Nat × List Nat)
  decompress_block : List Nat → List Nat → Option (List Nat)

/-- `PassThroughCodec` (`passthrough.rs`): stores blocks verbatim. -/
def passThroughCodec : Codec :=
  { id := CODEC_PASSTHROUGH
    name := "passthrough"
    compress_block := fun raw => some (raw, [])
    decompress_block := fun compressed _ => some compressed }

-- ── Writer (`writer.rs`) ──────────────────────────────────────────────────
/-- State of a `Writer`: the file contents written so far, the codec,
the block size, the pending raw bytes, the in-memory index, and the
current write position (which mirrors the file cursor). -/
structure WriterState where
  fileData : List Nat
  codec : Codec
  block_size : Nat
  pending : List Nat
  entries : List BlockEntry
  current_offset : Nat

/-- `Writer::create`: write a 56-byte placeholder header. -/
def Writer.create (codec : Codec) (block_size : Nat) : WriterState :=
  { fileData := List.replicate HEADER_SIZE 0
    codec := codec
    block_size := block_size
    pending := []
    entries := []
    current_offset := HEADER_SIZE }

/-- `Writer::flush_block`: compress `raw` as a single block and append it
to the file.  The `% 2 ^ 16` / `% 2 ^ 32` mirror the source's
`meta.sidecar.len() as u16` and `compressed.len() as u32` casts; the
cursor advances by `2 + meta.sidecar.len()` (untruncated) plus the
truncated compressed length, exactly as in the source. -/
def Writer.flushBlock (hash : List Nat → Nat) (st : WriterState)
    (raw : List Nat) : Except AncfError WriterState :=
  match st.codec.compress_block raw with
  | none => .error .codecError
  | some (compressed, sidecar) =>
    let checksum := hash compressed
    let block_offset := st.current_offset
    let metadata_len := sidecar.length % 2 ^ 16
    let fd := if 0 < metadata_len then
        st.fileData ++ toLEBytes 2 metadata_len ++ sidecar
      else st.fileData
    let off := if 0 < metadata_len then
        st.current_offset + 2 + sidecar.length
      else st.current_offset
    let compressed_len := compressed.length % 2 ^ 32
    .ok { st with
          fileData := fd ++ compressed
          current_offset := off + compressed_len
          entries := st.entries ++
            [{ offset := block_offset
               compressed_len := compressed_len
               raw_len := raw.length % 2 ^ 32
               checksum := checksum
               metadata_len := metadata_len }] }

/-- The drain loop of `Writer::write`
(`while pending.len() >= block_size { drain; flush }`), fuel-indexed:
`none` means the loop has not exited within `fuel` iterations.  With
`block_size = 0` the guard is always true and every iteration drains
zero bytes, so the result is `none` for every fuel — the faithful image
of the source's non-termination. -/
def Writer.writeLoop (hash : List Nat → Nat) :
    Nat → WriterState → Option (Except AncfError WriterState)
  | 0, st =>
    if st.block_size ≤ st.pending.length then none else some (.ok st)
  | fuel + 1, st =>
    if st.block_size ≤ st.pending.length then
      let raw := st.pending.take st.block_size
      match Writer.flushBlock hash
          { st with pending := st.pending.drop st.block_size } raw with
      | .error e => some (.error e)
      | .ok st' => Writer.writeLoop hash fuel st'
    else some (.ok st)

/-- `Writer::write`: append `data` to the pending buffer and run the
drain loop.  The fuel `pending + data` length bounds the iteration count
whenever `block_size > 0`. -/
def Writer.write (hash : List Nat → Nat) (st : WriterState)
    (data : List Nat) : Option (Except AncfError WriterState) :=
  Writer.writeLoop hash (st.pending.length + data.length)
    { st with pending := st.pending ++ data }

/-- A sequence of `Writer::write` calls. -/
def Writer.writeAll (hash : List Nat → Nat) :
    WriterState → List (List Nat) → Option (Except AncfError WriterState)
  | st, [] => some (.ok st)
  | st, d :: ds =>
    match Writer.write hash st d with
    | some (.ok st') => Writer.writeAll hash st' ds
    | r => r

/-- The tail-flush step of `Writer::finish`: flush any partial trailing
block (the source `mem::take`s the pending buffer first). -/
def Writer.finishFlush (hash : List Nat → Nat) (st : WriterState) :
    Except AncfError WriterState :=
  if st.pending.isEmpty then .ok st
  else Writer.flushBlock hash { st with pending := [] } st.pending

/-- `Writer::finish`: flush the tail, append the block index and the
footer, seek to 0 and overwrite the placeholder header with the final
one.  Returns `(block_count, file contents)`.  (The source also
advances `current_offset` past the index; that value is never read
afterwards.) -/
def Writer.finish (hash : List Nat → Nat) (st : WriterState) :
    Except AncfError (Nat × List Nat) :=
  match Writer.finishFlush hash st with
  | .error e => .error e
  | .ok st1 =>
    let index_offset := st1.current_offset
    let fd := st1.fileData ++ (st1.entries.map BlockEntry.toBytes).flatten ++
      toLEBytes 8 index_offset
    let header : Ancf1Header :=
      { version := 1
        codec_id := st1.codec.id
        block_size := st1.block_size
        block_count := st1.entries.length
        flags := FLAG_HAS_CHECKSUM }
    .ok (st1.entries.length, header.toBytes ++ fd.drop HEADER_SIZE)

-- ── Reader (`reader.rs`) ──────────────────────────────────────────────────
/-- State of a `Reader`: the file contents, the parsed header, the
loaded index, the codec, and the file cursor `pos`. -/
structure ReaderState where
  fileData : List Nat
  header : Ancf1Header
  entries : List BlockEntry
  codec : Codec
  pos : Nat

/-- `read_exact` at an absolute position: returns `n` bytes starting at
`pos`, or an I/O error (unexpected EOF) when fewer are available. -/
def readExact (file : List Nat) (pos n : Nat) : Except AncfError (List Nat) :=
  if pos + n ≤ file.length then .ok ((file.drop pos).take n)
  else .error .ioError

/-- The index-loading loop of `Reader::open`: read `count` 32-byte
entries starting at `pos`. -/
def readEntriesAux (file : List Nat) :
    Nat → Nat → Except AncfError (List BlockEntry)
  | _, 0 => .ok []
  | pos, count + 1 =>
    match readExact file pos BLOCK_ENTRY_SIZE with
    | .error e => .error e
    | .ok buf =>
      match readEntriesAux file (pos + BLOCK_ENTRY_SIZE) count with
      | .error e => .error e
      | .ok rest => .ok (BlockEntry.fromBytes buf :: rest)

/-- `Reader::open`: read and validate the header, read the footer to
find the index, load the index. -/
def Reader.open (file : List Nat) (codec : Codec) :
    Except AncfError ReaderState :=
  match readExact file 0 HEADER_SIZE with
  | .error e => .error e
  | .ok header_buf =>
    match Ancf1Header.fromBytes header_buf with
    | .error e => .error e
    | .ok header =>
      if header.version ≠ 1 then .error .unsupportedVersion
      else if header.codec_id ≠ codec.id then .error .codecMismatch
      else
        match readExact file (file.length - 8) 8 with
        | .error e => .error e
        | .ok footer_buf =>
          let index_offset := fromLEBytes footer_buf
          match readEntriesAux file index_offset header.block_count with
          | .error e => .error e
          | .ok entries =>
            .ok { fileData := file
                  header := header
                  entries := entries
                  codec := codec
                  pos := index_offset + BLOCK_ENTRY_SIZE * header.block_count }

/-- `Reader::block_count` -/
def Reader.block_count (st : ReaderState) : Nat := st.header.block_count

/-- `Reader::raw_size`: sum of `raw_len` over the index. -/
def Reader.rawSize (st : ReaderState) : Nat :=
  (st.entries.map (fun e => e.raw_len)).sum

/-- `Reader::compressed_size`: sum of `compressed_len + metadata_len`. -/
def Reader.compressedSize (st : ReaderState) : Nat :=
  (st.entries.map (fun e => e.compressed_len + e.metadata_len)).sum

/-- On-disk pad in front of a block's payload: the 2-byte length prefix
plus the sidecar, present iff the entry declares metadata. -/
def padLen (e : BlockEntry) : Nat :=
  if 0 < e.metadata_len then 2 + e.metadata_len else 0

/-- Absolute position of a block's compressed payload. -/
def payloadPos (e : BlockEntry) : Nat := e.offset + padLen e

/-- End position of a block's on-disk representation. -/
def entryEnd (e : BlockEntry) : Nat := e.offset + padLen e + e.compressed_len

/-- The tail of `Reader::read_block` after the metadata stage: read the
payload, verify the checksum when the header demands it, decompress,
check the decompressed size.  `pm` is the payload position, `sidecar`
the metadata read (empty when the entry has none). -/
def Reader.finishBlock (hash : List Nat → Nat) (st : ReaderState)
    (entry : BlockEntry) (sidecar : List Nat) (pm : Nat) :
    Except AncfError (List Nat) × ReaderState :=
  match readExact st.fileData pm entry.compressed_len with
  | .error e => (.error e, { st with pos := pm })
  | .ok compressed =>
    let st1 := { st with pos := pm + entry.compressed_len }
    if st.header.hasFlag FLAG_HAS_CHECKSUM ∧ hash compressed ≠ entry.checksum then
      (.error .checksumMismatch, st1)
    else
      match st.codec.decompress_block compressed sidecar with
      | none => (.error .codecError, st1)
      | some raw =>
        if raw.length ≠ entry.raw_len then (.error .sizeMismatch, st1)
        else (.ok raw, st1)

/-- `Reader::read_block`: look up the entry, seek to its offset, read
the optional metadata sidecar (validating the redundant 2-byte prefix),
then read/verify/decompress the payload. -/
def Reader.read_block (hash : List Nat → Nat) (st : ReaderState)
    (idx : Nat) : Except AncfError (List Nat) × ReaderState :=
  match st.entries[idx]? with
  | none => (.error .outOfRange, st)
  | some entry =>
    if 0 < entry.metadata_len then
      match readExact st.fileData entry.offset 2 with
      | .error e => (.error e, { st with pos := entry.offset })
      | .ok len_buf =>
        if fromLEBytes len_buf ≠ entry.metadata_len then
          (.error .metadataLenMismatch, { st with pos := entry.offset + 2 })
        else
          match readExact st.fileData (entry.offset + 2) entry.metadata_len with
          | .error e => (.error e, { st with pos := entry.offset + 2 })
          | .ok sidecar =>
            Reader.finishBlock hash st entry sidecar
              (entry.offset + 2 + entry.metadata_len)
    else Reader.finishBlock hash st entry [] entry.offset

/-- `read_block i`, `read_block (i+1)`, …, `count` blocks in sequence,
concatenating the results (the claim's "read all blocks in order"). -/
def Reader.readBlocksFrom (hash : List Nat → Nat) :
    ReaderState → Nat → Nat → Except AncfError (List Nat) × ReaderState
  | st, _, 0 => (.ok [], st)
  | st, i, count + 1 =>
    match Reader.read_block hash st i with
    | (.error e, st') => (.error e, st')
    | (.ok b, st') =>
      match Reader.readBlocksFrom hash st' (i + 1) count with
      | (.error e, st'') => (.error e, st'')
      | (.ok rest, st'') => (.ok (b ++ rest), st'')

/-- The block loop of `Reader::read_range`
(`for block_idx in first..=last`), indexed by the number of remaining
blocks.  Intra-block slice bounds are computed exactly as in the
source; list `drop/take` stands in for Rust slicing (the source would
panic rather than return on out-of-bounds slice indices, and no theorem
below exercises that path). -/
def Reader.readRangeLoop (hash : List Nat → Nat)
    (start endv bs first last : Nat) :
    Nat → Nat → List Nat → ReaderState →
      Except AncfError (List Nat) × ReaderState
  | _, 0, acc, st => (.ok acc, st)
  | cur, n + 1, acc, st =>
    match Reader.read_block hash st cur with
    | (.error e, st') => (.error e, st')
    | (.ok block_raw, st') =>
      let block_start := cur * bs
      let slice_start := if cur = first then start - block_start else 0
      let slice_end := if cur = last then
          min (endv - block_start) block_raw.length
        else block_raw.length
      Reader.readRangeLoop hash start endv bs first last (cur + 1) n
        (acc ++ (block_raw.drop slice_start).take (slice_end - slice_start))
        st'

/-- `Reader::read_range`: resolve the byte range to the minimal span of
blocks and slice precisely. -/
def Reader.read_range (hash : List Nat → Nat) (st : ReaderState)
    (start len : Nat) : Except AncfError (List Nat) × ReaderState :=
  if len = 0 then (.ok [], st)
  else
    let raw_total := Reader.rawSize st
    if raw_total ≤ start then (.error .outOfRange, st)
    else
      let endv := min (start + len) raw_total
      let bs := st.header.block_size
      let first := start / bs
      let last := (endv - 1) / bs
      Reader.readRangeLoop hash start endv bs first last first
        (last + 1 - first) [] st

-- ── Canonical writer/reader states for the passthrough pipeline ───────────
/-- `⌈n / bs⌉`, the number of blocks a write of `n` bytes produces. -/
def numBlocks (bs n : Nat) : Nat := (n + bs - 1) / bs

/-- The `i`-th raw chunk of `D` under block size `bs`. -/
def chunkAt (bs i : Nat) (D : List Nat) : List Nat := (D.drop (bs * i)).take bs

/-- The index entry the passthrough writer records for block `i` of `D`. -/
def canonEntry (hash : List Nat → Nat) (bs : Nat) (D : List Nat) (i : Nat) :
    BlockEntry :=
  { offset := HEADER_SIZE + bs * i
    compressed_len := (chunkAt bs i D).length
    raw_len := (chunkAt bs i D).length
    checksum := hash (chunkAt bs i D)
    metadata_len := 0 }

/-- The first `n` canonical entries. -/
def canonEntries (hash : List Nat → Nat) (bs : Nat) (D : List Nat) (n : Nat) :
    List BlockEntry :=
  (List.range n).map (canonEntry hash bs D)

/-- Entries produced by draining `q` full blocks of `P`, the first at
offset `off` (recursive form matching the drain loop). -/
def mkEntries (hash : List Nat → Nat) (bs : Nat) :
    Nat → List Nat → Nat → List BlockEntry
  | _, _, 0 => []
  | off, P, q + 1 =>
    { offset := off
      compressed_len := bs
      raw_len := bs
      checksum := hash (P.take bs)
      metadata_len := 0 } :: mkEntries hash bs (off + bs) (P.drop bs) q

/-- The writer state after any sequence of `write` calls whose data
concatenates to `D` (passthrough codec, block size `bs > 0`). -/
def canonState (hash : List Nat → Nat) (bs : Nat) (D : List Nat) :
    WriterState :=
  { fileData := List.replicate HEADER_SIZE 0 ++ D.take (bs * (D.length / bs))
    codec := passThroughCodec
    block_size := bs
    pending := D.drop (bs * (D.length / bs))
    entries := canonEntries hash bs D (D.length / bs)
    current_offset := HEADER_SIZE + bs * (D.length / bs) }

/-- The writer state after `finish` has flushed the pending tail. -/
def sealedState (hash : List Nat → Nat) (bs : Nat) (D : List Nat) :
    WriterState :=
  { fileData := List.replicate HEADER_SIZE 0 ++ D
    codec := passThroughCodec
    block_size := bs
    pending := []
    entries := canonEntries hash bs D (numBlocks bs D.length)
    current_offset := HEADER_SIZE + D.length }

/-- The header `finish` writes for the passthrough pipeline. -/
def canonHeader (bs n : Nat) : Ancf1Header :=
  { version := 1
    codec_id := CODEC_PASSTHROUGH
    block_size := bs
    block_count := n
    flags := FLAG_HAS_CHECKSUM }

/-- The complete file produced by writing `D` with the passthrough codec
at block size `bs` and sealing. -/
def canonFile (hash : List Nat → Nat) (bs : Nat) (D : List Nat) : List Nat :=
  (canonHeader bs (numBlocks bs D.length)).toBytes ++ D ++
    ((canonEntries hash bs D (numBlocks bs D.length)).map
      BlockEntry.toBytes).flatten ++
    toLEBytes 8 (HEADER_SIZE + D.length)

/-- The reader state `Reader.open` yields on `canonFile`. -/
def canonReader (hash : List Nat → Nat) (bs : Nat) (D : List Nat) :
    ReaderState :=
  { fileData := canonFile hash bs D
    header := canonHeader bs (numBlocks bs D.length)
    entries := canonEntries hash bs D (numBlocks bs D.length)
    codec := passThroughCodec
    pos := HEADER_SIZE + D.length +
      BLOCK_ENTRY_SIZE * numBlocks bs D.length }

/-- A reader state with the cursor moved (all other fields unchanged). -/
def setPos (st : ReaderState) (p : Nat) : ReaderState :=
  { st with pos := p }

-- ── The full write-then-open pipeline ─────────────────────────────────────
/-- Create a passthrough `Writer` with block size `bs`, issue the write
calls `ds` in order, `finish`, and `open` a `Reader` on the resulting
file. -/
def writeReadPipeline (hash : List Nat → Nat) (bs : Nat)
    (ds : List (List Nat)) : Option (Except AncfError ReaderState) :=
  match Writer.writeAll hash (Writer.create passThroughCodec bs) ds with
  | none => none
  | some (.error e) => some (.error e)
  | some (.ok st) =>
    match Writer.finish hash st with
    | .error e => some (.error e)
    | .ok nf => some (Reader.open nf.2 passThroughCodec)

-- ── Claim theorems ────────────────────────────────────────────────────────
/-- Hash stand-in used by the concrete witnesses. -/
def wHash : List Nat → Nat := fun _ => 0

-- ── Writer invariants for an arbitrary codec ──────────────────────────────
/-- A codec whose outputs fit the on-disk `u32`/`u16` length fields
(true of every real codec: Rust vectors cannot outgrow memory, and a
sidecar is a small per-block table). -/
def codecBounded (c : Codec) : Prop :=
  ∀ raw comp side, c.compress_block raw = some (comp, side) →
    comp.length < 2 ^ 32 ∧ side.length < 2 ^ 16

/-- Writer states reachable from `Writer::create` by successful
`write` calls. -/
inductive Reaches (hash : List Nat → Nat) (c : Codec) (bs : Nat) :
    WriterState → Prop where
  | create : Reaches hash c bs (Writer.create c bs)
  | write (st st' : WriterState) (data : List Nat) :
      Reaches hash c bs st → Writer.write hash st data = some (.ok st') →
      Reaches hash c bs st'

/-- The index entries tile the file contiguously from `start` to
`endv`. -/
def chainOK : Nat → List BlockEntry → Nat → Prop
  | start, [], endv => start = endv
  | start, e :: rest, endv => e.offset = start ∧ chainOK (entryEnd e) rest endv

/-- Invariant maintained by the writer. -/
structure WInv (hash : List Nat → Nat) (c : Codec) (bs : Nat)
    (st : WriterState) : Prop where
  codec_eq : st.codec = c
  bs_eq : st.block_size = bs
  flen : st.fileData.length = st.current_offset
  chain : chainOK HEADER_SIZE st.entries st.current_offset
  cksums : ∀ e ∈ st.entries,
    hash ((st.fileData.drop (payloadPos e)).take e.compressed_len) =
      e.checksum

-- ── Witness data for the writer-invariant claims ──────────────────────────
/-- A tiny constant codec: every block compresses to the single byte `7`
with an empty sidecar.  Used to exercise the writer with a non-trivial
codec in concrete witnesses. -/
def constCodec : Codec :=
  { id := 3
    name := "const"
    compress_block := fun _ => some ([7], [])
    decompress_block := fun compressed _ => some compressed }

/-- The writer state reached from `Writer::create(constCodec, 4)` after
`write [1,2,3,4,5]`: one block flushed, one byte pending. -/
def wSt1 : WriterState :=
  { fileData := List.replicate 56 0 ++ [7]
    codec := constCodec
    block_size := 4
    pending := [5]
    entries := [⟨56, 1, 4, 0, 0⟩]
    current_offset := 57 }

/-- `wSt1` after the tail flush of `finish`. -/
def wSt2 : WriterState :=
  { fileData := List.replicate 56 0 ++ [7] ++ [7]
    codec := constCodec
    block_size := 4
    pending := []
    entries := [⟨56, 1, 4, 0, 0⟩, ⟨57, 1, 1, 0, 0⟩]
    current_offset := 58 }

/-- The file produced by `finish` from `wSt1`. -/
def wF : List Nat :=
  Ancf1Header.toBytes ⟨1, 3, 4, 2, 1⟩ ++
    ((List.replicate 56 0 ++ [7] ++ [7] ++
        ([(⟨56, 1, 4, 0, 0⟩ : BlockEntry),
          ⟨57, 1, 1, 0, 0⟩].map BlockEntry.toBytes).flatten ++
      toLEBytes 8 58).drop 56)

/-- The reader opened on `wF` with `constCodec`. -/
def wRd : ReaderState :=
  { fileData := wF
    header := ⟨1, 3, 4, 2, 1⟩
    entries := [⟨56, 1, 4, 0, 0⟩, ⟨57, 1, 1, 0, 0⟩]
    codec := constCodec
    pos := 122 }

@[simp] theorem length_toLEBytes (w n : Nat) : (toLEBytes w n).length = w := by
  induction w generalizing n with
  | zero => rfl
  | succ w ih => simp [toLEBytes, ih]

theorem fromLEBytes_toLEBytes (w n : Nat) :
    fromLEBytes (toLEBytes w n) = n % 2 ^ (8 * w) := by
  induction w generalizing n with
  | zero => simp [toLEBytes, fromLEBytes, Nat.mod_one]
  | succ w ih =>
    simp only [toLEBytes, fromLEBytes, ih]
    have hpow : 2 ^ (8 * (w + 1)) = 256 * 2 ^ (8 * w) := by
      rw [show 8 * (w + 1) = 8 + 8 * w by ring, Nat.pow_add]
    rw [hpow, Nat.mod_mul]

theorem fromLEBytes_toLEBytes_of_lt {w n : Nat} (h : n < 2 ^ (8 * w)) :
    fromLEBytes (toLEBytes w n) = n := by
  rw [fromLEBytes_toLEBytes, Nat.mod_eq_of_lt h]

@[simp] theorem length_MAGIC : MAGIC.length = 14 := rfl

@[simp] theorem Ancf1Header.length_toBytes_header (h : Ancf1Header) :
    h.toBytes.length = 56 := by
  simp [Ancf1Header.toBytes]

@[simp] theorem BlockEntry.length_toBytes_entry (e : BlockEntry) :
    e.toBytes.length = 32 := by
  simp [BlockEntry.toBytes]

-- ── Slicing helpers for decode-of-encode ──────────────────────────────────
theorem drop_append_of_length {α : Type} (l₁ l₂ : List α) (n : Nat)
    (h : l₁.length = n) : (l₁ ++ l₂).drop n = l₂ := by
  subst h; exact List.drop_left l₁ l₂

theorem take_append_of_length {α : Type} (l₁ l₂ : List α) (n : Nat)
    (h : l₁.length = n) : (l₁ ++ l₂).take n = l₁ := by
  subst h; exact List.take_left l₁ l₂

theorem drop_append_add {α : Type} (l₁ l₂ : List α) (n m : Nat)
    (h : l₁.length = n) : (l₁ ++ l₂).drop (n + m) = l₂.drop m := by
  subst h; rw [List.drop_append_eq_append_drop]; simp

theorem Ancf1Header.fromBytes_toBytes_header (h : Ancf1Header) (hr : h.InRange) :
    Ancf1Header.fromBytes h.toBytes = .ok h := by
  obtain ⟨v, cid, bsz, bc, fl⟩ := h
  obtain ⟨h1, h2, h3, h4, h5⟩ := hr
  simp only [Ancf1Header.toBytes, Ancf1Header.fromBytes, List.append_assoc]
  norm_num [List.take_append_eq_append_take, List.drop_append_eq_append_drop,
    length_toLEBytes, length_MAGIC, List.take_of_length_le, List.drop_eq_nil_of_le,
    fromLEBytes_toLEBytes]
  exact ⟨h1, h2, h3, h4, h5⟩

theorem BlockEntry.fromBytes_toBytes_entry (e : BlockEntry) (hr : e.InRange) :
    BlockEntry.fromBytes e.toBytes = e := by
  obtain ⟨o, cl, rl, ck, ml⟩ := e
  obtain ⟨h1, h2, h3, h4, h5⟩ := hr
  simp only [BlockEntry.toBytes, BlockEntry.fromBytes, List.append_assoc]
  norm_num [List.take_append_eq_append_take, List.drop_append_eq_append_drop,
    length_toLEBytes, List.take_of_length_le, List.drop_eq_nil_of_le,
    fromLEBytes_toLEBytes]
  exact ⟨h1, h2, h3, h4, h5⟩

-- ── Arithmetic about `numBlocks` ──────────────────────────────────────────
theorem numBlocks_pos_eq {bs m : Nat} (hbs : 0 < bs) (hm : 0 < m) :
    numBlocks bs m = (m - 1) / bs + 1 := by
  unfold numBlocks
  rw [show m + bs - 1 = (m - 1) + bs by omega, Nat.add_div_right _ hbs]

theorem numBlocks_zero (bs : Nat) : numBlocks bs 0 = 0 := by
  unfold numBlocks
  rcases Nat.eq_zero_or_pos bs with h | h
  · subst h; rfl
  · exact Nat.div_eq_of_lt (by omega)

theorem numBlocks_eq {bs : Nat} (m : Nat) (hbs : 0 < bs) :
    numBlocks bs m = m / bs + if m % bs = 0 then 0 else 1 := by
  rcases Nat.eq_zero_or_pos m with hm | hm
  · subst hm; simp [numBlocks_zero, Nat.zero_div, Nat.zero_mod]
  rw [numBlocks_pos_eq hbs hm]
  have hdm := Nat.div_add_mod m bs
  have hmod := Nat.mod_lt m hbs
  by_cases hr : m % bs = 0
  · -- m = bs * q with q ≥ 1; (m-1)/bs = q - 1
    have hq : 0 < m / bs := by
      rcases Nat.eq_zero_or_pos (m / bs) with h0 | h0
      · rw [h0, Nat.mul_zero, Nat.zero_add] at hdm; omega
      · exact h0
    have h1 : (m - 1) / bs = m / bs - 1 := by
      have hstep : bs * (m / bs - 1) + bs = bs * (m / bs) := by
        rw [← Nat.mul_succ]
        congr 1
        omega
      have : m - 1 = bs * (m / bs - 1) + (bs - 1) := by omega
      rw [this, Nat.mul_add_div hbs]
      have : (bs - 1) / bs = 0 := Nat.div_eq_of_lt (by omega)
      omega
    rw [h1, if_pos hr]
    omega
  · have h1 : (m - 1) / bs = m / bs := by
      have : m - 1 = bs * (m / bs) + (m % bs - 1) := by omega
      rw [this, Nat.mul_add_div hbs]
      have : (m % bs - 1) / bs = 0 := Nat.div_eq_of_lt (by omega)
      omega
    rw [h1, if_neg hr]

theorem mul_numBlocks_pred_lt {bs m : Nat} (hbs : 0 < bs) (hm : 0 < m) :
    bs * (numBlocks bs m - 1) < m := by
  rw [numBlocks_pos_eq hbs hm, Nat.add_sub_cancel]
  calc bs * ((m - 1) / bs) ≤ m - 1 := by
        rw [Nat.mul_comm]; exact Nat.div_mul_le_self _ _
    _ < m := by omega

theorem le_mul_numBlocks {bs m : Nat} (hbs : 0 < bs) :
    m ≤ bs * numBlocks bs m := by
  rcases Nat.eq_zero_or_pos m with hm | hm
  · simp [hm]
  rw [numBlocks_pos_eq hbs hm, Nat.mul_succ]
  have hdm := Nat.div_add_mod (m - 1) bs
  have hmod := Nat.mod_lt (m - 1) hbs
  omega

theorem numBlocks_le {bs m : Nat} (hbs : 0 < bs) : numBlocks bs m ≤ m := by
  rcases Nat.eq_zero_or_pos m with hm | hm
  · simp [hm, numBlocks_zero]
  rw [numBlocks_pos_eq hbs hm]
  have h1 : (m - 1) / bs ≤ m - 1 := Nat.div_le_self _ _
  omega

@[simp] theorem length_chunkAt (bs i : Nat) (D : List Nat) :
    (chunkAt bs i D).length = min bs (D.length - bs * i) := by
  simp [chunkAt]

@[simp] theorem length_mkEntries (hash : List Nat → Nat) (bs : Nat) :
    ∀ (q off : Nat) (P : List Nat), (mkEntries hash bs off P q).length = q := by
  intro q
  induction q with
  | zero => intro off P; rfl
  | succ q ih => intro off P; simp [mkEntries, ih]

-- ── The drain loop of `write` on the passthrough codec ────────────────────
theorem writeLoop_drain (hash : List Nat → Nat) :
    ∀ (fuel : Nat) (st : WriterState), st.codec = passThroughCodec →
      0 < st.block_size → st.block_size < 2 ^ 32 →
      st.pending.length ≤ fuel →
      Writer.writeLoop hash fuel st = some (.ok
        { fileData := st.fileData ++
            st.pending.take (st.block_size * (st.pending.length / st.block_size))
          codec := passThroughCodec
          block_size := st.block_size
          pending :=
            st.pending.drop (st.block_size * (st.pending.length / st.block_size))
          entries := st.entries ++ mkEntries hash st.block_size
            st.current_offset st.pending (st.pending.length / st.block_size)
          current_offset := st.current_offset +
            st.block_size * (st.pending.length / st.block_size) }) := by
  intro fuel
  induction fuel with
  | zero =>
    rintro ⟨fd, c, bs, P, es, off⟩ hc hbs hbs32 hfuel
    simp only at hc hbs hfuel ⊢
    subst hc
    have hp : P = [] := List.eq_nil_of_length_eq_zero (Nat.le_zero.mp hfuel)
    subst hp
    simp [Writer.writeLoop, Nat.not_le.mpr hbs, mkEntries, Nat.zero_div]
  | succ fuel ih =>
    rintro ⟨fd, c, bs, P, es, off⟩ hc hbs hbs32 hfuel
    simp only at hc hbs hbs32 hfuel ⊢
    subst hc
    by_cases hguard : bs ≤ P.length
    · have htake : (P.take bs).length = bs := by
        simp [List.length_take, Nat.min_eq_left hguard]
      have hflush : Writer.flushBlock hash
          ⟨fd, passThroughCodec, bs, P.drop bs, es, off⟩ (P.take bs) = .ok
          ⟨fd ++ P.take bs, passThroughCodec, bs, P.drop bs,
            es ++ [⟨off, bs, bs, hash (P.take bs), 0⟩], off + bs⟩ := by
        simp [Writer.flushBlock, passThroughCodec, htake,
          Nat.mod_eq_of_lt hbs32]
        omega
      have hlen' : (P.drop bs).length = P.length - bs := by simp
      have hfuel' : (P.drop bs).length ≤ fuel := by omega
      have hstep := ih
        ⟨fd ++ P.take bs, passThroughCodec, bs, P.drop bs,
          es ++ [⟨off, bs, bs, hash (P.take bs), 0⟩], off + bs⟩
        rfl hbs hbs32 hfuel'
      simp only [Writer.writeLoop, if_pos hguard, hflush]
      rw [hstep]
      have hq : P.length / bs = (P.length - bs) / bs + 1 := by
        conv_lhs => rw [show P.length = (P.length - bs) + bs by omega]
        rw [Nat.add_div_right _ hbs]
      simp only [hlen']
      have hmul : bs * (P.length / bs) = bs + bs * ((P.length - bs) / bs) := by
        rw [hq, Nat.mul_succ]; ring
      refine congrArg (fun x => some (Except.ok x)) ?_
      rw [WriterState.mk.injEq]
      refine ⟨?_, rfl, rfl, ?_, ?_, ?_⟩
      · rw [hmul, List.take_add, ← List.append_assoc]
      · rw [hmul, ← List.drop_drop]
      · rw [hq, mkEntries, List.append_assoc, List.singleton_append]
      · rw [hmul]; ring
    · have hq : P.length / bs = 0 := Nat.div_eq_of_lt (Nat.not_le.mp hguard)
      simp [Writer.writeLoop, hguard, hq, mkEntries]

-- ── Slices across appends ─────────────────────────────────────────────────
theorem drop_append_of_le {α : Type} (D X : List α) (a : Nat)
    (h : a ≤ D.length) : (D ++ X).drop a = D.drop a ++ X := by
  rw [List.drop_append_eq_append_drop, show a - D.length = 0 by omega,
    List.drop_zero]

theorem take_append_of_le {α : Type} (D X : List α) (a : Nat)
    (h : a ≤ D.length) : (D ++ X).take a = D.take a := by
  rw [List.take_append_eq_append_take, show a - D.length = 0 by omega,
    List.take_zero, List.append_nil]

theorem take_drop_append {α : Type} (D X : List α) (a b : Nat)
    (h : a + b ≤ D.length) : ((D ++ X).drop a).take b = (D.drop a).take b := by
  rw [drop_append_of_le D X a (by omega), take_append_of_le]
  simp
  omega

/-- `D[a:b] ++ D[b:c] = D[a:c]` for `a ≤ b ≤ c`. -/
theorem slice_glue {α : Type} (D : List α) (a b c : Nat) (hab : a ≤ b)
    (hbc : b ≤ c) :
    (D.drop a).take (b - a) ++ (D.drop b).take (c - b) =
      (D.drop a).take (c - a) := by
  rw [show c - a = (b - a) + (c - b) by omega, List.take_add]
  congr 2
  rw [List.drop_drop, show a + (b - a) = b by omega]

-- ── `mkEntries` in mapped form and composition with `canonEntries` ────────
theorem mkEntries_eq (hash : List Nat → Nat) (bs : Nat) :
    ∀ (q off : Nat) (P : List Nat),
      mkEntries hash bs off P q = (List.range q).map
        (fun j => ⟨off + bs * j, bs, bs, hash ((P.drop (bs * j)).take bs), 0⟩) := by
  intro q
  induction q with
  | zero => intro off P; rfl
  | succ q ih =>
    intro off P
    rw [mkEntries, ih, List.range_succ_eq_map, List.map_cons, List.map_map]
    rw [List.cons.injEq]
    constructor
    · simp
    · refine List.map_congr_left ?_
      intro j _
      simp only [Function.comp_apply, Nat.succ_eq_add_one]
      rw [BlockEntry.mk.injEq]
      refine ⟨by rw [Nat.mul_succ]; ring, rfl, rfl, ?_, rfl⟩
      rw [List.drop_drop]
      congr 2
      rw [Nat.mul_succ]
      ring

theorem canonEntries_succ (hash : List Nat → Nat) (bs : Nat) (D : List Nat)
    (n : Nat) :
    canonEntries hash bs D (n + 1) =
      canonEntries hash bs D n ++ [canonEntry hash bs D n] := by
  unfold canonEntries
  rw [List.range_succ, List.map_append, List.map_singleton]

theorem canonEntries_split (hash : List Nat → Nat) (bs : Nat) (D X : List Nat)
    (k q : Nat) (hk : bs * k ≤ D.length)
    (hq : bs * q ≤ (D.drop (bs * k) ++ X).length) :
    canonEntries hash bs (D ++ X) (k + q) =
      canonEntries hash bs D k ++
        mkEntries hash bs (HEADER_SIZE + bs * k) (D.drop (bs * k) ++ X) q := by
  unfold canonEntries
  rw [List.range_add, List.map_append, List.map_map, mkEntries_eq]
  congr 1
  · refine List.map_congr_left ?_
    intro i hi
    rw [List.mem_range] at hi
    unfold canonEntry chunkAt
    have hib : bs * i + bs ≤ D.length := by
      have h1 : bs * (i + 1) ≤ bs * k := Nat.mul_le_mul_left _ hi
      rw [Nat.mul_succ] at h1
      omega
    rw [take_drop_append D X (bs * i) bs hib]
  · refine List.map_congr_left ?_
    intro j hj
    rw [List.mem_range] at hj
    simp only [Function.comp_apply]
    unfold canonEntry chunkAt
    have hchunk : (D ++ X).drop (bs * (k + j)) =
        (D.drop (bs * k) ++ X).drop (bs * j) := by
      rw [Nat.mul_add, ← List.drop_drop, drop_append_of_le D X (bs * k) hk]
    have hfull : bs * j + bs ≤ (D.drop (bs * k) ++ X).length := by
      have h1 : bs * (j + 1) ≤ bs * q := Nat.mul_le_mul_left _ hj
      rw [Nat.mul_succ] at h1
      omega
    have hlen : (((D.drop (bs * k) ++ X).drop (bs * j)).take bs).length = bs := by
      simp only [List.length_take, List.length_drop]
      omega
    rw [BlockEntry.mk.injEq, hchunk]
    exact ⟨by rw [Nat.mul_add]; ring, hlen, hlen, rfl, rfl⟩

-- ── The passthrough write pipeline reaches canonical states ──────────────
theorem mul_div_le_self_left (a b : Nat) : b * (a / b) ≤ a := by
  rw [Nat.mul_comm]
  exact Nat.div_mul_le_self a b

theorem create_eq_canonState (hash : List Nat → Nat) (bs : Nat) :
    Writer.create passThroughCodec bs = canonState hash bs [] := by
  unfold Writer.create canonState canonEntries
  simp [Nat.zero_div]

theorem write_canon (hash : List Nat → Nat) (bs : Nat) (D data : List Nat)
    (hbs : 0 < bs) (hbs32 : bs < 2 ^ 32) :
    Writer.write hash (canonState hash bs D) data =
      some (.ok (canonState hash bs (D ++ data))) := by
  have hkle : bs * (D.length / bs) ≤ D.length := mul_div_le_self_left _ _
  set k := D.length / bs with hk
  set P : List Nat := D.drop (bs * k) ++ data with hP
  set q := P.length / bs with hq
  have hqle : bs * q ≤ P.length := mul_div_le_self_left _ _
  have hdrain := writeLoop_drain hash ((D.drop (bs * k)).length + data.length)
    ⟨List.replicate HEADER_SIZE 0 ++ D.take (bs * k), passThroughCodec, bs,
      P, canonEntries hash bs D k, HEADER_SIZE + bs * k⟩
    rfl hbs hbs32 (by simp [hP])
  simp only at hdrain
  have hgoal : Writer.write hash (canonState hash bs D) data =
      Writer.writeLoop hash ((D.drop (bs * k)).length + data.length)
        ⟨List.replicate HEADER_SIZE 0 ++ D.take (bs * k), passThroughCodec, bs,
          P, canonEntries hash bs D k, HEADER_SIZE + bs * k⟩ := by
    simp only [Writer.write, canonState, hP, hk]
  rw [hgoal, hdrain]
  have hk' : (D ++ data).length / bs = k + q := by
    have hsplit : (D ++ data).length = bs * k + P.length := by
      simp only [hP, List.length_append, List.length_drop]
      omega
    rw [hsplit, Nat.mul_add_div hbs, hq]
  refine congrArg (fun x => some (Except.ok x)) ?_
  unfold canonState
  rw [WriterState.mk.injEq]
  rw [hk']
  refine ⟨?_, rfl, rfl, ?_, ?_, ?_⟩
  · -- fileData
    rw [Nat.mul_add, List.take_add, List.append_assoc]
    congr 2
    · rw [take_append_of_le D data (bs * k) hkle]
    · rw [drop_append_of_le D data (bs * k) hkle]
  · -- pending
    rw [Nat.mul_add, ← List.drop_drop, drop_append_of_le D data (bs * k) hkle]
  · -- entries
    rw [canonEntries_split hash bs D data k q hkle (hP ▸ hqle)]
  · -- current_offset
    rw [Nat.mul_add]
    ring

theorem writeAll_canon (hash : List Nat → Nat) (bs : Nat)
    (hbs : 0 < bs) (hbs32 : bs < 2 ^ 32) :
    ∀ (ds : List (List Nat)) (D : List Nat),
      Writer.writeAll hash (canonState hash bs D) ds =
        some (.ok (canonState hash bs (D ++ ds.flatten))) := by
  intro ds
  induction ds with
  | nil => intro D; simp [Writer.writeAll]
  | cons d ds ih =>
    intro D
    rw [Writer.writeAll, write_canon hash bs D d hbs hbs32]
    dsimp only
    rw [ih (D ++ d), List.flatten_cons, List.append_assoc]

theorem finishFlush_canon (hash : List Nat → Nat) (bs : Nat) (D : List Nat)
    (hbs : 0 < bs) (hbs32 : bs < 2 ^ 32) :
    Writer.finishFlush hash (canonState hash bs D) =
      .ok (sealedState hash bs D) := by
  have hkle : bs * (D.length / bs) ≤ D.length := Nat.mul_div_le _ _
  have hdm : bs * (D.length / bs) + D.length % bs = D.length :=
    Nat.div_add_mod D.length bs
  have hmod : D.length % bs < bs := Nat.mod_lt _ hbs
  have hdlen : (D.drop (bs * (D.length / bs))).length = D.length % bs := by
    simp only [List.length_drop]
    omega
  by_cases hr : D.length % bs = 0
  · have hbk : bs * (D.length / bs) = D.length := by omega
    have hpe : D.drop (bs * (D.length / bs)) = [] :=
      List.eq_nil_of_length_eq_zero (by omega)
    have hnum : numBlocks bs D.length = D.length / bs := by
      rw [numBlocks_eq D.length hbs, if_pos hr, Nat.add_zero]
    unfold Writer.finishFlush canonState sealedState
    simp only [hpe, List.isEmpty_nil, if_true, hnum]
    rw [Except.ok.injEq, WriterState.mk.injEq]
    refine ⟨?_, rfl, rfl, rfl, rfl, ?_⟩
    · rw [hbk, List.take_length]
    · omega
  · have hlen0 : (D.drop (bs * (D.length / bs))).length ≠ 0 := by omega
    have hnum : numBlocks bs D.length = D.length / bs + 1 := by
      rw [numBlocks_eq D.length hbs, if_neg hr]
    have hclen : (D.drop (bs * (D.length / bs))).length % 2 ^ 32 =
        D.length % bs := by
      rw [hdlen, Nat.mod_eq_of_lt (by omega)]
    have hflush : Writer.flushBlock hash
        ⟨List.replicate HEADER_SIZE 0 ++ D.take (bs * (D.length / bs)),
          passThroughCodec, bs, [],
          canonEntries hash bs D (D.length / bs),
          HEADER_SIZE + bs * (D.length / bs)⟩
        (D.drop (bs * (D.length / bs))) = .ok
        ⟨(List.replicate HEADER_SIZE 0 ++ D.take (bs * (D.length / bs))) ++
            D.drop (bs * (D.length / bs)),
          passThroughCodec, bs, [],
          canonEntries hash bs D (D.length / bs) ++
            [⟨HEADER_SIZE + bs * (D.length / bs), D.length % bs,
              D.length % bs, hash (D.drop (bs * (D.length / bs))), 0⟩],
          HEADER_SIZE + bs * (D.length / bs) + D.length % bs⟩ := by
      simp [Writer.flushBlock, passThroughCodec, hclen]
      omega
    unfold Writer.finishFlush
    simp only [canonState]
    rw [if_neg (by simp [List.isEmpty_iff_length_eq_zero]; omega)]
    rw [hflush, Except.ok.injEq]
    unfold sealedState
    rw [WriterState.mk.injEq]
    refine ⟨?_, rfl, rfl, rfl, ?_, ?_⟩
    · rw [List.append_assoc, List.take_append_drop]
    · rw [hnum, canonEntries_succ]
      congr 1
      unfold canonEntry chunkAt
      have htail : (D.drop (bs * (D.length / bs))).take bs =
          D.drop (bs * (D.length / bs)) :=
        List.take_of_length_le (by omega)
      rw [htail, hdlen]
    · omega

theorem finish_canon (hash : List Nat → Nat) (bs : Nat) (D : List Nat)
    (hbs : 0 < bs) (hbs32 : bs < 2 ^ 32) :
    Writer.finish hash (canonState hash bs D) =
      .ok (numBlocks bs D.length, canonFile hash bs D) := by
  unfold Writer.finish
  rw [finishFlush_canon hash bs D hbs hbs32]
  have hlen : (canonEntries hash bs D (numBlocks bs D.length)).length =
      numBlocks bs D.length := by
    simp [canonEntries]
  simp only [sealedState]
  rw [Except.ok.injEq, Prod.mk.injEq]
  refine ⟨hlen, ?_⟩
  unfold canonFile canonHeader
  rw [List.append_assoc, List.append_assoc,
    drop_append_of_length _ _ _ (List.length_replicate _ _), hlen]
  simp [passThroughCodec, List.append_assoc]

-- ── Opening the canonical file ────────────────────────────────────────────
theorem canonEntry_inRange (hash : List Nat → Nat) (bs : Nat) (D : List Nat)
    (i : Nat) (hbs : 0 < bs) (hbs32 : bs < 2 ^ 32)
    (hfit : HEADER_SIZE + D.length < 2 ^ 64) (hhash : ∀ l, hash l < 2 ^ 64)
    (hi : i < numBlocks bs D.length) : (canonEntry hash bs D i).InRange := by
  have hD : 0 < D.length := by
    rcases Nat.eq_zero_or_pos D.length with h0 | h0
    · rw [h0, numBlocks_zero] at hi; omega
    · exact h0
  have hoff : bs * i ≤ bs * (numBlocks bs D.length - 1) :=
    Nat.mul_le_mul_left _ (by omega)
  have hlast : bs * (numBlocks bs D.length - 1) < D.length :=
    mul_numBlocks_pred_lt hbs hD
  unfold HEADER_SIZE at hfit
  unfold BlockEntry.InRange canonEntry HEADER_SIZE
  simp only [length_chunkAt]
  refine ⟨by omega, by omega, by omega, hhash _, by norm_num⟩

theorem length_flatten_toBytes (es : List BlockEntry) :
    ((es.map BlockEntry.toBytes).flatten).length = 32 * es.length := by
  induction es with
  | nil => rfl
  | cons e tl ih =>
    rw [List.map_cons, List.flatten_cons, List.length_append, ih]
    rw [BlockEntry.length_toBytes_entry, List.length_cons, Nat.mul_succ]
    ring

theorem readEntriesAux_spec :
    ∀ (es : List BlockEntry) (pre post : List Nat),
      (∀ e ∈ es, e.InRange) →
      readEntriesAux (pre ++ (es.map BlockEntry.toBytes).flatten ++ post)
        pre.length es.length = .ok es := by
  intro es
  induction es with
  | nil => intro pre post _; rfl
  | cons e tl ih =>
    intro pre post hr
    have hfile : pre ++ ((e :: tl).map BlockEntry.toBytes).flatten ++ post
        = (pre ++ e.toBytes) ++ (tl.map BlockEntry.toBytes).flatten ++ post := by
      simp [List.append_assoc]
    rw [hfile, List.length_cons, readEntriesAux]
    have hre : readExact
        ((pre ++ e.toBytes) ++ (tl.map BlockEntry.toBytes).flatten ++ post)
        pre.length BLOCK_ENTRY_SIZE = .ok e.toBytes := by
      unfold readExact BLOCK_ENTRY_SIZE
      rw [if_pos (by simp only [List.length_append,
        BlockEntry.length_toBytes_entry]; omega)]
      rw [List.append_assoc, List.append_assoc,
        drop_append_of_length pre _ pre.length rfl,
        take_append_of_length _ _ 32 (BlockEntry.length_toBytes_entry e)]
    rw [hre]
    dsimp only
    rw [BlockEntry.fromBytes_toBytes_entry e (hr e (List.mem_cons_self e tl))]
    have hpos : pre.length + BLOCK_ENTRY_SIZE = (pre ++ e.toBytes).length := by
      simp [BLOCK_ENTRY_SIZE]
    rw [hpos, ih (pre ++ e.toBytes) post
      (fun x hx => hr x (List.mem_cons_of_mem e hx))]

theorem open_canon (hash : List Nat → Nat) (bs : Nat) (D : List Nat)
    (hbs : 0 < bs) (hbs32 : bs < 2 ^ 32)
    (hfit : HEADER_SIZE + D.length < 2 ^ 64) (hhash : ∀ l, hash l < 2 ^ 64) :
    Reader.open (canonFile hash bs D) passThroughCodec =
      .ok (canonReader hash bs D) := by
  have hnle : numBlocks bs D.length ≤ D.length := numBlocks_le hbs
  have hJlen : ((canonEntries hash bs D (numBlocks bs D.length)).map
      BlockEntry.toBytes).flatten.length = 32 * numBlocks bs D.length := by
    rw [length_flatten_toBytes]
    simp [canonEntries]
  have hHlen : (canonHeader bs (numBlocks bs D.length)).toBytes.length = 56 :=
    Ancf1Header.length_toBytes_header _
  have hFlen : (canonFile hash bs D).length =
      56 + D.length + 32 * numBlocks bs D.length + 8 := by
    unfold canonFile
    simp only [List.length_append, hJlen, hHlen, length_toLEBytes]
  have hH : readExact (canonFile hash bs D) 0 HEADER_SIZE =
      .ok (canonHeader bs (numBlocks bs D.length)).toBytes := by
    unfold readExact
    rw [if_pos (by unfold HEADER_SIZE; omega)]
    rw [List.drop_zero]
    unfold canonFile
    rw [List.append_assoc, List.append_assoc,
      take_append_of_length _ _ HEADER_SIZE (by rw [hHlen]; rfl)]
  have hhdr : Ancf1Header.fromBytes
      (canonHeader bs (numBlocks bs D.length)).toBytes =
      .ok (canonHeader bs (numBlocks bs D.length)) := by
    apply Ancf1Header.fromBytes_toBytes_header
    unfold canonHeader Ancf1Header.InRange CODEC_PASSTHROUGH FLAG_HAS_CHECKSUM
    simp only
    refine ⟨by norm_num, by norm_num, hbs32, ?_, by norm_num⟩
    unfold HEADER_SIZE at hfit
    omega
  have hT : readExact (canonFile hash bs D)
      ((canonFile hash bs D).length - 8) 8 =
      .ok (toLEBytes 8 (HEADER_SIZE + D.length)) := by
    unfold readExact
    rw [if_pos (by omega)]
    have hshape : canonFile hash bs D =
        ((canonHeader bs (numBlocks bs D.length)).toBytes ++ D ++
          ((canonEntries hash bs D (numBlocks bs D.length)).map
            BlockEntry.toBytes).flatten) ++
          toLEBytes 8 (HEADER_SIZE + D.length) := by
      unfold canonFile
      simp [List.append_assoc]
    have hAlen : ((canonHeader bs (numBlocks bs D.length)).toBytes ++ D ++
        ((canonEntries hash bs D (numBlocks bs D.length)).map
          BlockEntry.toBytes).flatten).length =
        (canonFile hash bs D).length - 8 := by
      simp only [List.length_append, hHlen, hJlen, hFlen]
      omega
    rw [← hAlen]
    conv_lhs => rw [hshape]
    rw [drop_append_of_length _ _ _ rfl,
      List.take_of_length_le (by simp)]
  have hfoot : fromLEBytes (toLEBytes 8 (HEADER_SIZE + D.length)) =
      HEADER_SIZE + D.length :=
    fromLEBytes_toLEBytes_of_lt (by norm_num; omega)
  have hE : readEntriesAux (canonFile hash bs D) (HEADER_SIZE + D.length)
      (numBlocks bs D.length) =
      .ok (canonEntries hash bs D (numBlocks bs D.length)) := by
    have hshape : canonFile hash bs D =
        ((canonHeader bs (numBlocks bs D.length)).toBytes ++ D) ++
          ((canonEntries hash bs D (numBlocks bs D.length)).map
            BlockEntry.toBytes).flatten ++
          toLEBytes 8 (HEADER_SIZE + D.length) := by
      unfold canonFile
      simp [List.append_assoc]
    have hprelen : ((canonHeader bs (numBlocks bs D.length)).toBytes ++
        D).length = HEADER_SIZE + D.length := by
      simp only [List.length_append, hHlen]
      rfl
    have hcount : (canonEntries hash bs D (numBlocks bs D.length)).length =
        numBlocks bs D.length := by
      simp [canonEntries]
    have hspec := readEntriesAux_spec
      (canonEntries hash bs D (numBlocks bs D.length))
      ((canonHeader bs (numBlocks bs D.length)).toBytes ++ D)
      (toLEBytes 8 (HEADER_SIZE + D.length)) ?_
    · rw [hprelen, hcount, ← hshape] at hspec
      exact hspec
    · intro e he
      rw [canonEntries, List.mem_map] at he
      obtain ⟨i, hi, rfl⟩ := he
      rw [List.mem_range] at hi
      exact canonEntry_inRange hash bs D i hbs hbs32 hfit hhash hi
  rw [Reader.open, hH]
  dsimp only
  rw [hhdr]
  dsimp only
  rw [if_neg (by unfold canonHeader; simp)]
  rw [if_neg (by unfold canonHeader passThroughCodec; simp)]
  rw [hT]
  dsimp only
  rw [hfoot]
  rw [show (canonHeader bs (numBlocks bs D.length)).block_count
    = numBlocks bs D.length from rfl]
  rw [hE]
  dsimp only
  rw [canonReader]

-- ── `read_block` touches only the cursor, and ignores it ──────────────────
theorem finishBlock_fst_pos (hash : List Nat → Nat) (st : ReaderState)
    (e : BlockEntry) (sc : List Nat) (pm p : Nat) :
    (Reader.finishBlock hash (setPos st p) e sc pm).fst =
      (Reader.finishBlock hash st e sc pm).fst := rfl

theorem finishBlock_snd_fields (hash : List Nat → Nat) (st : ReaderState)
    (e : BlockEntry) (sc : List Nat) (pm : Nat) :
    (Reader.finishBlock hash st e sc pm).snd.fileData = st.fileData ∧
    (Reader.finishBlock hash st e sc pm).snd.header = st.header ∧
    (Reader.finishBlock hash st e sc pm).snd.entries = st.entries ∧
    (Reader.finishBlock hash st e sc pm).snd.codec = st.codec := by
  unfold Reader.finishBlock
  cases readExact st.fileData pm e.compressed_len with
  | error er => exact ⟨rfl, rfl, rfl, rfl⟩
  | ok compressed =>
    dsimp only
    by_cases hck : st.header.hasFlag FLAG_HAS_CHECKSUM ∧
        hash compressed ≠ e.checksum
    · simp [if_pos hck]
    · simp only [if_neg hck]
      cases st.codec.decompress_block compressed sc with
      | none => exact ⟨rfl, rfl, rfl, rfl⟩
      | some raw =>
        dsimp only
        by_cases hsz : raw.length ≠ e.raw_len
        · simp [if_pos hsz]
        · simp [if_neg hsz]

theorem read_block_fst_pos (hash : List Nat → Nat) (st : ReaderState)
    (idx p : Nat) :
    (Reader.read_block hash (setPos st p) idx).fst =
      (Reader.read_block hash st idx).fst := by
  unfold setPos
  unfold Reader.read_block
  dsimp only
  cases st.entries[idx]? with
  | none => rfl
  | some e =>
    dsimp only
    by_cases hml : 0 < e.metadata_len
    · simp only [if_pos hml]
      cases readExact st.fileData e.offset 2 with
      | error er => rfl
      | ok lb =>
        dsimp only
        by_cases hne : fromLEBytes lb ≠ e.metadata_len
        · simp only [if_pos hne]
        · simp only [if_neg hne]
          cases readExact st.fileData (e.offset + 2) e.metadata_len with
          | error er => rfl
          | ok sc => exact finishBlock_fst_pos hash st e sc _ p
    · simp only [if_neg hml]
      exact finishBlock_fst_pos hash st e [] _ p

theorem read_block_snd_fields (hash : List Nat → Nat) (st : ReaderState)
    (idx : Nat) :
    (Reader.read_block hash st idx).snd.fileData = st.fileData ∧
    (Reader.read_block hash st idx).snd.header = st.header ∧
    (Reader.read_block hash st idx).snd.entries = st.entries ∧
    (Reader.read_block hash st idx).snd.codec = st.codec := by
  unfold Reader.read_block
  cases st.entries[idx]? with
  | none => exact ⟨rfl, rfl, rfl, rfl⟩
  | some e =>
    dsimp only
    by_cases hml : 0 < e.metadata_len
    · simp only [if_pos hml]
      cases readExact st.fileData e.offset 2 with
      | error er => exact ⟨rfl, rfl, rfl, rfl⟩
      | ok lb =>
        dsimp only
        by_cases hne : fromLEBytes lb ≠ e.metadata_len
        · simp [if_pos hne]
        · simp only [if_neg hne]
          cases readExact st.fileData (e.offset + 2) e.metadata_len with
          | error er => exact ⟨rfl, rfl, rfl, rfl⟩
          | ok sc => exact finishBlock_snd_fields hash st e sc _
    · simp only [if_neg hml]
      exact finishBlock_snd_fields hash st e [] _

theorem ReaderState.eq_set_pos {a b : ReaderState} (h1 : a.fileData = b.fileData)
    (h2 : a.header = b.header) (h3 : a.entries = b.entries)
    (h4 : a.codec = b.codec) : a = setPos b a.pos := by
  unfold setPos
  cases a
  cases b
  simp only at h1 h2 h3 h4
  rw [ReaderState.mk.injEq]
  exact ⟨h1, h2, h3, h4, rfl⟩

/-- A `read_block` on a reader differing only in cursor position yields
the same result, and a state again differing from the base only in the
cursor. -/
theorem read_block_shift (hash : List Nat → Nat) (st : ReaderState)
    (idx p : Nat) :
    Reader.read_block hash (setPos st p) idx =
      ((Reader.read_block hash st idx).fst,
        setPos st (Reader.read_block hash (setPos st p) idx).snd.pos) := by
  obtain ⟨h1, h2, h3, h4⟩ :=
    read_block_snd_fields hash (setPos st p) idx
  have hfst := read_block_fst_pos hash st idx p
  refine Prod.ext ?_ ?_
  · exact hfst
  · exact ReaderState.eq_set_pos h1 h2 h3 h4

-- ── Reading a block of the canonical file ─────────────────────────────────
theorem take_length_take {α : Type} (l : List α) (n : Nat) :
    l.take ((l.take n).length) = l.take n := by
  rw [List.length_take]
  rcases le_total n l.length with h | h
  · rw [Nat.min_eq_left h]
  · rw [Nat.min_eq_right h, List.take_length, List.take_of_length_le h]

theorem canonFile_length (hash : List Nat → Nat) (bs : Nat) (D : List Nat) :
    (canonFile hash bs D).length =
      56 + D.length + 32 * numBlocks bs D.length + 8 := by
  unfold canonFile
  simp only [List.length_append, Ancf1Header.length_toBytes_header, length_toLEBytes,
    length_flatten_toBytes]
  have : (canonEntries hash bs D (numBlocks bs D.length)).length =
      numBlocks bs D.length := by simp [canonEntries]
  rw [this]

theorem read_block_canon (hash : List Nat → Nat) (bs : Nat) (D : List Nat)
    (i : Nat) (hbs : 0 < bs) (hi : i < numBlocks bs D.length) :
    (Reader.read_block hash (canonReader hash bs D) i).fst =
      .ok (chunkAt bs i D) := by
  have hD : 0 < D.length := by
    rcases Nat.eq_zero_or_pos D.length with h0 | h0
    · rw [h0, numBlocks_zero] at hi; omega
    · exact h0
  have hbi : bs * i < D.length := by
    calc bs * i ≤ bs * (numBlocks bs D.length - 1) :=
          Nat.mul_le_mul_left _ (by omega)
      _ < D.length := mul_numBlocks_pred_lt hbs hD
  have hclen : (chunkAt bs i D).length ≤ D.length - bs * i := by
    rw [length_chunkAt]; omega
  have hidx : (canonReader hash bs D).entries[i]? =
      some (canonEntry hash bs D i) := by
    unfold canonReader canonEntries
    dsimp only
    rw [List.getElem?_map, List.getElem?_range hi]
    rfl
  have hre : readExact (canonFile hash bs D) (HEADER_SIZE + bs * i)
      (chunkAt bs i D).length = .ok (chunkAt bs i D) := by
    unfold readExact
    rw [if_pos (by rw [canonFile_length]; unfold HEADER_SIZE; omega)]
    unfold canonFile
    rw [List.append_assoc, List.append_assoc,
      drop_append_add _ _ HEADER_SIZE (bs * i)
        (by rw [Ancf1Header.length_toBytes_header]; rfl),
      drop_append_of_le D _ (bs * i) (Nat.le_of_lt hbi),
      take_append_of_le _ _ _ (by rw [List.length_drop]; exact hclen)]
    rw [show (chunkAt bs i D).length = ((D.drop (bs * i)).take bs).length
        from rfl, take_length_take]
    rfl
  unfold Reader.read_block
  rw [hidx]
  dsimp only
  rw [if_neg (by unfold canonEntry; simp)]
  unfold Reader.finishBlock canonReader canonEntry
  dsimp only
  rw [hre]
  dsimp only
  rw [if_neg (by
    intro hcontra
    exact hcontra.2 rfl)]
  simp only [passThroughCodec]
  rw [if_neg (by simp)]

-- ── Reading all blocks in order ───────────────────────────────────────────
theorem readBlocksFrom_canon (hash : List Nat → Nat) (bs : Nat) (D : List Nat)
    (hbs : 0 < bs) :
    ∀ (m i p : Nat), i + m ≤ numBlocks bs D.length →
      (Reader.readBlocksFrom hash
        (setPos (canonReader hash bs D) p) i m).fst =
        .ok ((List.range m).map (fun j => chunkAt bs (i + j) D)).flatten := by
  intro m
  induction m with
  | zero => intro i p _; rfl
  | succ m ih =>
    intro i p hle
    rw [Reader.readBlocksFrom, read_block_shift,
      read_block_canon hash bs D i hbs (by omega)]
    dsimp only
    set q := (Reader.read_block hash
      (setPos (canonReader hash bs D) p) i).2.pos with hq
    have hrec := ih (i + 1) q (by omega)
    rcases hres : Reader.readBlocksFrom hash
      (setPos (canonReader hash bs D) q) (i + 1) m with ⟨fstv, sndv⟩
    rw [hres] at hrec
    dsimp only at hrec
    subst hrec
    dsimp only
    rw [List.range_succ_eq_map, List.map_cons, List.flatten_cons, List.map_map]
    rw [Except.ok.injEq]
    congr 1
    refine congrArg List.flatten (List.map_congr_left ?_)
    intro j _
    simp only [Function.comp_apply, Nat.succ_eq_add_one]
    congr 1
    omega

theorem flatten_chunks_aux (bs : Nat) (hbs : 0 < bs) :
    ∀ (n : Nat) (D : List Nat), n = numBlocks bs D.length →
      ((List.range n).map (fun j => chunkAt bs j D)).flatten = D := by
  intro n
  induction n with
  | zero =>
    intro D h
    have hlen : D.length = 0 := by
      rcases Nat.eq_zero_or_pos D.length with h0 | h0
      · exact h0
      · exfalso
        rw [numBlocks_pos_eq hbs h0] at h
        exact Nat.succ_ne_zero _ h.symm
    simp [List.eq_nil_of_length_eq_zero hlen]
  | succ n ih =>
    intro D h
    have hD : 0 < D.length := by
      rcases Nat.eq_zero_or_pos D.length with h0 | h0
      · rw [h0, numBlocks_zero] at h; omega
      · exact h0
    rw [List.range_succ_eq_map, List.map_cons, List.flatten_cons, List.map_map]
    have hshift : ∀ j : Nat, chunkAt bs (j + 1) D = chunkAt bs j (D.drop bs) := by
      intro j
      unfold chunkAt
      rw [List.drop_drop]
      congr 2
      rw [Nat.mul_succ]
      ring
    have hn : n = numBlocks bs (D.drop bs).length := by
      rw [List.length_drop]
      rcases le_or_lt D.length bs with hle | hlt
      · have h1 : numBlocks bs D.length = 1 := by
          rw [numBlocks_pos_eq hbs hD]
          have : (D.length - 1) / bs = 0 := Nat.div_eq_of_lt (by omega)
          omega
        rw [show D.length - bs = 0 by omega, numBlocks_zero]
        omega
      · have h2 : numBlocks bs (D.length - bs) = numBlocks bs D.length - 1 := by
          rw [numBlocks_pos_eq hbs (by omega), numBlocks_pos_eq hbs hD]
          have h3 : D.length - 1 = (D.length - bs - 1) + bs := by omega
          rw [h3, Nat.add_div_right _ hbs, Nat.add_sub_cancel]
        omega
    have hmap : (List.range n).map ((fun j => chunkAt bs j D) ∘ Nat.succ) =
        (List.range n).map (fun j => chunkAt bs j (D.drop bs)) := by
      refine List.map_congr_left ?_
      intro j _
      simp only [Function.comp_apply, Nat.succ_eq_add_one]
      exact hshift j
    rw [hmap, ih (D.drop bs) hn]
    unfold chunkAt
    rw [Nat.mul_zero, List.drop_zero, List.take_append_drop]

theorem rawSize_canon (hash : List Nat → Nat) (bs : Nat) (D : List Nat)
    (hbs : 0 < bs) : Reader.rawSize (canonReader hash bs D) = D.length := by
  have hflat := congrArg List.length
    (flatten_chunks_aux bs hbs (numBlocks bs D.length) D rfl)
  rw [List.length_flatten, List.map_map] at hflat
  unfold Reader.rawSize canonReader canonEntries
  dsimp only
  rw [List.map_map]
  have hmap : (List.range (numBlocks bs D.length)).map
      ((fun e => e.raw_len) ∘ canonEntry hash bs D) =
      (List.range (numBlocks bs D.length)).map
        (List.length ∘ fun j => chunkAt bs j D) := by
    refine List.map_congr_left ?_
    intro j _
    rfl
  rw [hmap]
  exact hflat

theorem writeReadPipeline_canon (hash : List Nat → Nat) (bs : Nat)
    (ds : List (List Nat)) (hbs : 0 < bs) (hbs32 : bs < 2 ^ 32)
    (hfit : HEADER_SIZE + ds.flatten.length < 2 ^ 64)
    (hhash : ∀ l, hash l < 2 ^ 64) :
    writeReadPipeline hash bs ds =
      some (.ok (canonReader hash bs ds.flatten)) := by
  unfold writeReadPipeline
  rw [create_eq_canonState hash bs, writeAll_canon hash bs hbs hbs32 ds []]
  rw [List.nil_append]
  dsimp only
  rw [finish_canon hash bs ds.flatten hbs hbs32]
  dsimp only
  rw [open_canon hash bs ds.flatten hbs hbs32 hfit hhash]

-- ── `read_range` on the canonical reader ──────────────────────────────────
theorem chunk_slice (bs cur : Nat) (D : List Nat) (s e : Nat)
    (he : e ≤ (chunkAt bs cur D).length) :
    ((chunkAt bs cur D).drop s).take (e - s) =
      (D.drop (bs * cur + s)).take (e - s) := by
  unfold chunkAt
  rw [List.drop_take, List.drop_drop, List.take_take]
  congr 1
  rw [length_chunkAt] at he
  omega

theorem readRangeLoop_canon (hash : List Nat → Nat) (bs : Nat) (D : List Nat)
    (hbs : 0 < bs) (start endv : Nat) (hse : start < endv)
    (heD : endv ≤ D.length) :
    ∀ (m cur : Nat) (acc : List Nat) (p : Nat),
      start / bs ≤ cur → cur + m = (endv - 1) / bs + 1 →
      (Reader.readRangeLoop hash start endv bs (start / bs) ((endv - 1) / bs)
        cur m acc (setPos (canonReader hash bs D) p)).fst =
        .ok (acc ++ (D.drop (max start (bs * cur))).take
          (endv - max start (bs * cur))) := by
  intro m
  induction m with
  | zero =>
    intro cur acc p hfc hm
    have hcur : cur = (endv - 1) / bs + 1 := by omega
    subst hcur
    unfold Reader.readRangeLoop
    dsimp only
    rw [Except.ok.injEq]
    have h4 : endv ≤ bs * ((endv - 1) / bs + 1) := by
      have f3 := Nat.mul_div_le (endv - 1) bs
      rw [Nat.mul_succ]
      have f4 := Nat.div_add_mod (endv - 1) bs
      have f5 := Nat.mod_lt (endv - 1) hbs
      omega
    have hmax : endv ≤ max start (bs * ((endv - 1) / bs + 1)) :=
      Nat.le_trans h4 (Nat.le_max_right _ _)
    rw [show endv - max start (bs * ((endv - 1) / bs + 1)) = 0 by omega]
    rw [List.take_zero, List.append_nil]
  | succ m ih =>
    intro cur acc p hfc hm
    have hDpos : 0 < D.length := by omega
    have hcl : cur ≤ (endv - 1) / bs := by omega
    have hcurn : cur < numBlocks bs D.length := by
      rw [numBlocks_pos_eq hbs hDpos]
      have hmono : (endv - 1) / bs ≤ (D.length - 1) / bs :=
        Nat.div_le_div_right (by omega)
      omega
    unfold Reader.readRangeLoop
    rw [read_block_shift, read_block_canon hash bs D cur hbs hcurn]
    dsimp only
    have hcomm : cur * bs = bs * cur := Nat.mul_comm cur bs
    have hf1 : bs * (start / bs) ≤ start := Nat.mul_div_le start bs
    have hf2 : start < bs * (start / bs) + bs := by
      have g1 := Nat.div_add_mod start bs
      have g2 := Nat.mod_lt start hbs
      omega
    have hlast1 : bs * ((endv - 1) / bs) ≤ endv - 1 := Nat.mul_div_le _ bs
    have hm1 : bs * (start / bs) ≤ bs * cur := Nat.mul_le_mul_left _ hfc
    have hm2 : bs * cur ≤ bs * ((endv - 1) / bs) := Nat.mul_le_mul_left _ hcl
    have hm3 : bs * (cur + 1) = bs * cur + bs := Nat.mul_succ bs cur
    have hm4 : cur = start / bs ∨ bs * (start / bs) + bs ≤ bs * cur := by
      rcases Nat.lt_or_ge (start / bs) cur with h | h
      · right
        have := Nat.mul_le_mul_left bs h
        rw [Nat.mul_succ] at this
        omega
      · left; omega
    have hs_eq : (if cur = start / bs then start - cur * bs else 0) =
        max start (bs * cur) - bs * cur := by
      by_cases hcf : cur = start / bs
      · rw [if_pos hcf, hcomm]
        have h1 : bs * cur ≤ start := by rw [hcf]; exact hf1
        rw [Nat.max_eq_left h1]
      · rw [if_neg hcf]
        have hlt : start < bs * cur := by
          rcases hm4 with h | h
          · exact absurd h hcf
          · omega
        rw [Nat.max_eq_right (Nat.le_of_lt hlt)]
        omega
    have he_eq : (if cur = (endv - 1) / bs
        then min (endv - cur * bs) (chunkAt bs cur D).length
        else (chunkAt bs cur D).length) =
        min endv (bs * cur + (chunkAt bs cur D).length) - bs * cur := by
      rw [length_chunkAt, hcomm]
      by_cases hcla : cur = (endv - 1) / bs
      · rw [if_pos hcla]
        have h1 : bs * cur ≤ endv - 1 := by rw [hcla]; exact hlast1
        omega
      · rw [if_neg hcla]
        have hcl1 : cur + 1 ≤ (endv - 1) / bs := by omega
        have h1 : bs * (cur + 1) ≤ bs * ((endv - 1) / bs) :=
          Nat.mul_le_mul_left _ hcl1
        omega
    rw [hs_eq, he_eq]
    have hchk : (chunkAt bs cur D).length = min bs (D.length - bs * cur) :=
      length_chunkAt bs cur D
    have hmaxlt : max start (bs * cur) < bs * cur + bs := by
      refine Nat.max_lt.mpr ⟨?_, by omega⟩
      rcases hm4 with h | h
      · have := hf2
        rw [← h] at this
        omega
      · omega
    have hmaxle : max start (bs * cur) ≤ endv - 1 := by
      refine Nat.max_le.mpr ⟨by omega, by omega⟩
    have hbound : max start (bs * cur) - bs * cur ≤
        min endv (bs * cur + (chunkAt bs cur D).length) - bs * cur := by
      rw [hchk]
      omega
    rw [chunk_slice bs cur D _ _ (by rw [hchk]; omega)]
    rw [show bs * cur + (max start (bs * cur) - bs * cur) =
      max start (bs * cur) by omega]
    rw [show min endv (bs * cur + (chunkAt bs cur D).length) - bs * cur -
      (max start (bs * cur) - bs * cur) =
      min endv (bs * cur + (chunkAt bs cur D).length) -
        max start (bs * cur) by omega]
    rw [ih (cur + 1) _ _ (by omega) (by omega)]
    rw [Except.ok.injEq, List.append_assoc]
    congr 1
    by_cases hcla : cur = (endv - 1) / bs
    · have h1 : bs * cur ≤ endv - 1 := by rw [hcla]; exact hlast1
      have h2 : endv ≤ bs * (cur + 1) := by
        have f4 := Nat.div_add_mod (endv - 1) bs
        have f5 := Nat.mod_lt (endv - 1) hbs
        rw [← hcla] at f4
        omega
      have h3 : min endv (bs * cur + (chunkAt bs cur D).length) = endv := by
        rw [hchk]
        omega
      have h4 : endv ≤ max start (bs * (cur + 1)) :=
        Nat.le_trans h2 (Nat.le_max_right _ _)
      rw [h3, show endv - max start (bs * (cur + 1)) = 0 by omega,
        List.take_zero, List.append_nil]
    · have hcl1 : cur + 1 ≤ (endv - 1) / bs := by omega
      have h1 : bs * (cur + 1) ≤ bs * ((endv - 1) / bs) :=
        Nat.mul_le_mul_left _ hcl1
      have h2 : min endv (bs * cur + (chunkAt bs cur D).length) =
          bs * (cur + 1) := by
        rw [hchk]
        omega
      have h3 : max start (bs * (cur + 1)) = bs * (cur + 1) := by
        refine Nat.max_eq_right ?_
        omega
      rw [h2, h3]
      exact slice_glue D (max start (bs * cur)) (bs * (cur + 1)) endv
        (by omega) (by omega)

theorem read_range_canon (hash : List Nat → Nat) (bs : Nat) (D : List Nat)
    (start len : Nat) (hbs : 0 < bs) (hlen : 0 < len)
    (hstart : start < D.length) :
    (Reader.read_range hash (canonReader hash bs D) start len).fst =
      .ok ((D.drop start).take len) := by
  unfold Reader.read_range
  simp only [rawSize_canon hash bs D hbs,
    show (canonReader hash bs D).header.block_size = bs from rfl]
  rw [if_neg (show ¬ len = 0 by omega),
    if_neg (show ¬ D.length ≤ start by omega)]
  have hdiv : start / bs ≤ (min (start + len) D.length - 1) / bs :=
    Nat.div_le_div_right (by omega)
  have hloop := readRangeLoop_canon hash bs D hbs start
    (min (start + len) D.length) (by omega) (by omega)
    ((min (start + len) D.length - 1) / bs + 1 - start / bs) (start / bs)
    [] (canonReader hash bs D).pos (Nat.le_refl _) (by omega)
  rw [show setPos (canonReader hash bs D) (canonReader hash bs D).pos =
    canonReader hash bs D from rfl] at hloop
  rw [hloop, Except.ok.injEq, List.nil_append,
    Nat.max_eq_left (Nat.mul_div_le start bs)]
  refine List.take_eq_take.mpr ?_
  rw [List.length_drop]
  omega

/-- C1: Round-trip completeness.  For every block size `B > 0` (a `u32`)
and every input, split arbitrarily into write calls `ds` (with total
content `ds.flatten` small enough that the `u64` offsets are exact),
writing all the pieces with the passthrough codec, finishing, and
opening a reader on the resulting file succeeds, and concatenating
`read_block 0`, …, `read_block (block_count - 1)` returns exactly the
original byte sequence. -/
theorem C1_round_trip (hash : List Nat → Nat) (bs : Nat)
    (ds : List (List Nat)) (hbs : 0 < bs) (hbs32 : bs < 2 ^ 32)
    (hfit : HEADER_SIZE + ds.flatten.length < 2 ^ 64)
    (hhash : ∀ l, hash l < 2 ^ 64) :
    writeReadPipeline hash bs ds =
      some (.ok (canonReader hash bs ds.flatten)) ∧
    (Reader.readBlocksFrom hash (canonReader hash bs ds.flatten) 0
      (canonReader hash bs ds.flatten).header.block_count).fst =
      .ok ds.flatten := by
  refine ⟨writeReadPipeline_canon hash bs ds hbs hbs32 hfit hhash, ?_⟩
  have hmap : ((List.range (numBlocks bs ds.flatten.length)).map
      (fun j => chunkAt bs (0 + j) ds.flatten)).flatten = ds.flatten := by
    have h1 : (List.range (numBlocks bs ds.flatten.length)).map
        (fun j => chunkAt bs (0 + j) ds.flatten) =
        (List.range (numBlocks bs ds.flatten.length)).map
          (fun j => chunkAt bs j ds.flatten) :=
      List.map_congr_left (fun j _ => by rw [Nat.zero_add])
    rw [h1]
    exact flatten_chunks_aux bs hbs _ ds.flatten rfl
  rw [show (canonReader hash bs ds.flatten).header.block_count
      = numBlocks bs ds.flatten.length from rfl]
  have hloop := readBlocksFrom_canon hash bs ds.flatten hbs
    (numBlocks bs ds.flatten.length) 0 (canonReader hash bs ds.flatten).pos
    (by omega)
  rw [hmap] at hloop
  rw [show setPos (canonReader hash bs ds.flatten)
    (canonReader hash bs ds.flatten).pos =
    canonReader hash bs ds.flatten from rfl] at hloop
  exact hloop

/-- C1 witness: the pipeline and round-trip at block size 2 on the split
`[1,2] ++ [3]` of `[1,2,3]`. -/
theorem C1_round_trip_witness :
    writeReadPipeline wHash 2 [[1, 2], [3]] =
      some (.ok (canonReader wHash 2 [1, 2, 3])) ∧
    (Reader.readBlocksFrom wHash (canonReader wHash 2 [1, 2, 3]) 0
      (canonReader wHash 2 [1, 2, 3]).header.block_count).fst =
      .ok [1, 2, 3] :=
  C1_round_trip wHash 2 [[1, 2], [3]] (by decide) (by decide) (by decide)
    (fun _ => Nat.pos_pow_of_pos 64 (by norm_num))

/-- C2: Range correctness.  On a reader opened on the file written from
content `D = ds.flatten`, `read_range start len` returns `[]` when
`len = 0`; fails with `OutOfRange` when `len > 0` and
`start ≥ raw_size()` (where `raw_size()` equals `|D|`); and for
`start < |D|` returns exactly `D[start : min (start+len) |D|]`, whose
length is `min len (|D| - start)`. -/
theorem C2_range_correctness (hash : List Nat → Nat) (bs : Nat)
    (ds : List (List Nat)) (start len : Nat) (hbs : 0 < bs)
    (hbs32 : bs < 2 ^ 32) (hfit : HEADER_SIZE + ds.flatten.length < 2 ^ 64)
    (hhash : ∀ l, hash l < 2 ^ 64) :
    writeReadPipeline hash bs ds =
      some (.ok (canonReader hash bs ds.flatten)) ∧
    Reader.rawSize (canonReader hash bs ds.flatten) = ds.flatten.length ∧
    (len = 0 →
      (Reader.read_range hash (canonReader hash bs ds.flatten)
        start len).fst = .ok []) ∧
    (0 < len → ds.flatten.length ≤ start →
      (Reader.read_range hash (canonReader hash bs ds.flatten)
        start len).fst = .error .outOfRange) ∧
    (0 < len → start < ds.flatten.length →
      (Reader.read_range hash (canonReader hash bs ds.flatten)
        start len).fst = .ok ((ds.flatten.drop start).take len) ∧
      ((ds.flatten.drop start).take len).length =
        min len (ds.flatten.length - start)) := by
  refine ⟨writeReadPipeline_canon hash bs ds hbs hbs32 hfit hhash,
    rawSize_canon hash bs ds.flatten hbs, ?_, ?_, ?_⟩
  · intro h
    subst h
    rfl
  · intro h1 h2
    unfold Reader.read_range
    rw [if_neg (by omega), rawSize_canon hash bs ds.flatten hbs,
      if_pos h2]
  · intro h1 h2
    refine ⟨read_range_canon hash bs ds.flatten start len hbs h1 h2, ?_⟩
    rw [List.length_take, List.length_drop]

/-- C2 witness: range `[1, 1+2)` of content `[5,6,7,8,9]` at block
size 2. -/
theorem C2_range_correctness_witness :
    (Reader.read_range wHash (canonReader wHash 2 [5, 6, 7, 8, 9])
      1 2).fst = .ok [6, 7] ∧
    (([5, 6, 7, 8, 9].drop 1).take 2).length = min 2 (5 - 1) :=
  (C2_range_correctness wHash 2 [[5, 6, 7, 8, 9]] 1 2 (by decide) (by decide)
    (by decide) (fun _ => Nat.pos_pow_of_pos 64 (by norm_num))).2.2.2.2
    (by decide) (by decide)

/-- C4: Block count law.  For non-empty content `D = ds.flatten` and
block size `B > 0`, `finish` returns `⌈|D| / B⌉` blocks; every recorded
entry except the last has `raw_len = B`; the last entry has
`raw_len = |D| - (block_count - 1) * B`; and the `raw_len`s sum to
`|D|`. -/
theorem C4_block_count (hash : List Nat → Nat) (bs : Nat)
    (ds : List (List Nat)) (hbs : 0 < bs) (hbs32 : bs < 2 ^ 32)
    (hne : ds.flatten.length ≠ 0) :
    Writer.writeAll hash (Writer.create passThroughCodec bs) ds =
      some (.ok (canonState hash bs ds.flatten)) ∧
    Writer.finish hash (canonState hash bs ds.flatten) =
      .ok ((ds.flatten.length + bs - 1) / bs, canonFile hash bs ds.flatten) ∧
    (sealedState hash bs ds.flatten).entries.length =
      (ds.flatten.length + bs - 1) / bs ∧
    (∀ i e, (sealedState hash bs ds.flatten).entries[i]? = some e →
      i + 1 < (sealedState hash bs ds.flatten).entries.length →
      e.raw_len = bs) ∧
    (∀ e, (sealedState hash bs ds.flatten).entries[
        (sealedState hash bs ds.flatten).entries.length - 1]? = some e →
      e.raw_len = ds.flatten.length -
        ((ds.flatten.length + bs - 1) / bs - 1) * bs) ∧
    ((sealedState hash bs ds.flatten).entries.map
      (fun e => e.raw_len)).sum = ds.flatten.length := by
  have hlen : (sealedState hash bs ds.flatten).entries.length =
      numBlocks bs ds.flatten.length := by
    simp [sealedState, canonEntries]
  have hD : 0 < ds.flatten.length := by omega
  refine ⟨?_, finish_canon hash bs ds.flatten hbs hbs32, hlen, ?_, ?_, ?_⟩
  · rw [create_eq_canonState hash bs,
      writeAll_canon hash bs hbs hbs32 ds [], List.nil_append]
  · intro i e h hi
    rw [hlen] at hi
    have hin : i < numBlocks bs ds.flatten.length := by omega
    rw [show (sealedState hash bs ds.flatten).entries =
      canonEntries hash bs ds.flatten (numBlocks bs ds.flatten.length)
      from rfl] at h
    unfold canonEntries at h
    rw [List.getElem?_map, List.getElem?_range hin] at h
    simp only [Option.map_some', Option.some.injEq] at h
    subst h
    unfold canonEntry
    dsimp only
    rw [length_chunkAt]
    have h1 : bs * (i + 1) ≤ bs * (numBlocks bs ds.flatten.length - 1) :=
      Nat.mul_le_mul_left _ (by omega)
    have h2 := mul_numBlocks_pred_lt hbs hD
    rw [Nat.mul_succ] at h1
    omega
  · intro e h
    rw [hlen] at h
    have hn1 : 0 < numBlocks bs ds.flatten.length := by
      rw [numBlocks_pos_eq hbs hD]
      exact Nat.succ_pos _
    have hin : numBlocks bs ds.flatten.length - 1 <
        numBlocks bs ds.flatten.length := by omega
    rw [show (sealedState hash bs ds.flatten).entries =
      canonEntries hash bs ds.flatten (numBlocks bs ds.flatten.length)
      from rfl] at h
    unfold canonEntries at h
    rw [List.getElem?_map, List.getElem?_range hin] at h
    simp only [Option.map_some', Option.some.injEq] at h
    subst h
    unfold canonEntry
    dsimp only
    rw [length_chunkAt]
    have h2 := mul_numBlocks_pred_lt hbs hD
    have h3 := le_mul_numBlocks (m := ds.flatten.length) hbs
    have h4 : bs * numBlocks bs ds.flatten.length =
        bs * (numBlocks bs ds.flatten.length - 1) + bs := by
      rw [← Nat.mul_succ]
      congr 1
      omega
    have h5 : (numBlocks bs ds.flatten.length - 1) * bs =
        bs * (numBlocks bs ds.flatten.length - 1) := Nat.mul_comm _ _
    rw [show (ds.flatten.length + bs - 1) / bs =
      numBlocks bs ds.flatten.length from rfl, h5]
    omega
  · exact rawSize_canon hash bs ds.flatten hbs

/-- C4 witness: three bytes at block size 2 seal into 2 blocks whose
`raw_len`s sum to 3. -/
theorem C4_block_count_witness :
    Writer.finish wHash (canonState wHash 2 [1, 2, 3]) =
      .ok (2, canonFile wHash 2 [1, 2, 3]) ∧
    (sealedState wHash 2 [1, 2, 3]).entries.length = 2 ∧
    ((sealedState wHash 2 [1, 2, 3]).entries.map
      (fun e => e.raw_len)).sum = 3 :=
  ⟨(C4_block_count wHash 2 [[1, 2, 3]] (by decide) (by decide)
      (by decide)).2.1,
    (C4_block_count wHash 2 [[1, 2, 3]] (by decide) (by decide)
      (by decide)).2.2.1,
    (C4_block_count wHash 2 [[1, 2, 3]] (by decide) (by decide)
      (by decide)).2.2.2.2.2⟩

theorem chainOK_le : ∀ (l : List BlockEntry) (s endv : Nat),
    chainOK s l endv → s ≤ endv := by
  intro l
  induction l with
  | nil => intro s endv h; exact Nat.le_of_eq h
  | cons e rest ih =>
    intro s endv h
    obtain ⟨h1, h2⟩ := h
    have h3 := ih _ _ h2
    unfold entryEnd at h3
    omega

theorem chainOK_mem : ∀ (l : List BlockEntry) (s endv : Nat),
    chainOK s l endv → ∀ e ∈ l, s ≤ e.offset ∧ entryEnd e ≤ endv := by
  intro l
  induction l with
  | nil => intro s endv _ e he; exact absurd he (List.not_mem_nil e)
  | cons x rest ih =>
    intro s endv h e he
    obtain ⟨h1, h2⟩ := h
    rcases List.mem_cons.mp he with rfl | hmem
    · exact ⟨Nat.le_of_eq h1.symm, chainOK_le rest _ _ h2⟩
    · have h3 := ih _ _ h2 e hmem
      unfold entryEnd at h3 ⊢
      omega

theorem chainOK_append_one : ∀ (l : List BlockEntry) (s m : Nat)
    (x : BlockEntry), chainOK s l m → x.offset = m →
    chainOK s (l ++ [x]) (entryEnd x) := by
  intro l
  induction l with
  | nil =>
    intro s m x h hx
    exact ⟨by rw [hx, h], rfl⟩
  | cons y rest ih =>
    intro s m x h hx
    obtain ⟨h1, h2⟩ := h
    exact ⟨h1, ih _ _ x h2 hx⟩

theorem chainOK_consecutive : ∀ (l : List BlockEntry) (s endv : Nat),
    chainOK s l endv → ∀ (i : Nat) (e e' : BlockEntry),
      l[i]? = some e → l[i + 1]? = some e' → entryEnd e = e'.offset := by
  intro l
  induction l with
  | nil => intro s endv _ i e e' h; simp at h
  | cons x rest ih =>
    intro s endv h i e e' h1 h2
    obtain ⟨hx, hrest⟩ := h
    cases i with
    | zero =>
      simp only [List.getElem?_cons_zero, Option.some.injEq] at h1
      subst h1
      rw [List.getElem?_cons_succ] at h2
      cases rest with
      | nil => simp at h2
      | cons y tl =>
        simp only [List.getElem?_cons_zero, Option.some.injEq] at h2
        subst h2
        exact hrest.1.symm
    | succ j =>
      rw [List.getElem?_cons_succ] at h1 h2
      exact ih _ _ hrest j e e' h1 h2

theorem chainOK_last_end : ∀ (l : List BlockEntry) (s endv : Nat),
    chainOK s l endv → ∀ e, l[l.length - 1]? = some e →
      entryEnd e = endv := by
  intro l
  induction l with
  | nil => intro s endv _ e h; simp at h
  | cons x rest ih =>
    intro s endv h e he
    obtain ⟨hx, hrest⟩ := h
    cases hr : rest with
    | nil =>
      subst hr
      simp only [List.length_cons, List.length_nil, Nat.zero_add,
        Nat.sub_self, List.getElem?_cons_zero, Option.some.injEq] at he
      subst he
      exact hrest
    | cons y tl =>
      subst hr
      have hlen : (x :: y :: tl).length - 1 = (y :: tl).length - 1 + 1 := by
        simp
      rw [hlen, List.getElem?_cons_succ] at he
      exact ih _ _ hrest e he

theorem entryEnd_mk (o cl rl ck ml : Nat) :
    entryEnd ⟨o, cl, rl, ck, ml⟩ = o + (if 0 < ml then 2 + ml else 0) + cl := rfl

theorem payloadPos_mk (o cl rl ck ml : Nat) :
    payloadPos ⟨o, cl, rl, ck, ml⟩ = o + (if 0 < ml then 2 + ml else 0) := rfl

theorem flushBlock_inv (hash : List Nat → Nat) (c : Codec) (bs : Nat)
    (hb : codecBounded c) (st st' : WriterState) (raw : List Nat)
    (hinv : WInv hash c bs st)
    (h : Writer.flushBlock hash st raw = .ok st') :
    WInv hash c bs st' := by
  obtain ⟨fd, cc, bsz, P, es, off⟩ := st
  obtain ⟨hceq, hbseq, hflen, hchain, hck⟩ := hinv
  simp only at hceq hbseq hflen hchain hck
  subst hceq
  subst hbseq
  unfold Writer.flushBlock at h
  simp only at h
  rcases hc : Codec.compress_block cc raw with _ | ⟨comp, side⟩
  · rw [hc] at h
    simp at h
  rw [hc] at h
  simp only [Except.ok.injEq] at h
  obtain ⟨hcl, hsl⟩ := hb raw comp side hc
  have hml : side.length % 2 ^ 16 = side.length := Nat.mod_eq_of_lt hsl
  have hcl2 : comp.length % 2 ^ 32 = comp.length := Nat.mod_eq_of_lt hcl
  rw [hml, hcl2] at h
  subst h
  by_cases hpos : 0 < side.length
  · simp only [if_pos hpos]
    refine ⟨rfl, rfl, ?_, ?_, ?_⟩
    · simp only [List.length_append, length_toLEBytes]
      omega
    · have hch := chainOK_append_one es HEADER_SIZE off
        ⟨off, comp.length, raw.length % 2 ^ 32, hash comp, side.length⟩
        hchain rfl
      rw [entryEnd_mk, if_pos hpos] at hch
      have harr : off + (2 + side.length) + comp.length =
          off + 2 + side.length + comp.length := by omega
      rw [harr] at hch
      exact hch
    · intro e he
      rcases List.mem_append.mp he with hmem | hnew
      · obtain ⟨hbd1, hbd2⟩ := chainOK_mem es HEADER_SIZE off hchain e hmem
        have hfit : payloadPos e + e.compressed_len ≤ fd.length := by
          simp only [payloadPos]
          simp only [entryEnd] at hbd2
          omega
        have hsplit : (fd ++ toLEBytes 2 side.length ++ side) ++ comp =
            fd ++ (toLEBytes 2 side.length ++ (side ++ comp)) := by
          simp [List.append_assoc]
        rw [hsplit, take_drop_append fd _ _ _ hfit]
        exact hck e hmem
      · rw [List.mem_singleton] at hnew
        subst hnew
        simp only [payloadPos_mk, if_pos hpos]
        have hAlen : (fd ++ toLEBytes 2 side.length ++ side).length =
            off + (2 + side.length) := by
          simp only [List.length_append, length_toLEBytes]
          omega
        rw [drop_append_of_length _ comp _ hAlen, List.take_length]
  · simp only [if_neg hpos]
    refine ⟨rfl, rfl, ?_, ?_, ?_⟩
    · simp only [List.length_append]
      omega
    · have hch := chainOK_append_one es HEADER_SIZE off
        ⟨off, comp.length, raw.length % 2 ^ 32, hash comp, side.length⟩
        hchain rfl
      rw [entryEnd_mk, if_neg hpos] at hch
      have harr : off + 0 + comp.length = off + comp.length := by omega
      rw [harr] at hch
      exact hch
    · intro e he
      rcases List.mem_append.mp he with hmem | hnew
      · obtain ⟨hbd1, hbd2⟩ := chainOK_mem es HEADER_SIZE off hchain e hmem
        have hfit : payloadPos e + e.compressed_len ≤ fd.length := by
          simp only [payloadPos]
          simp only [entryEnd] at hbd2
          omega
        rw [take_drop_append fd comp _ _ hfit]
        exact hck e hmem
      · rw [List.mem_singleton] at hnew
        subst hnew
        simp only [payloadPos_mk, if_neg hpos]
        rw [drop_append_of_length fd comp (off + 0) (by omega),
          List.take_length]

theorem WInv_set_pending (hash : List Nat → Nat) (c : Codec) (bs : Nat)
    (st : WriterState) (P : List Nat) (hinv : WInv hash c bs st) :
    WInv hash c bs { st with pending := P } :=
  ⟨hinv.codec_eq, hinv.bs_eq, hinv.flen, hinv.chain, hinv.cksums⟩

theorem writeLoop_inv (hash : List Nat → Nat) (c : Codec) (bs : Nat)
    (hb : codecBounded c) : ∀ (fuel : Nat) (st st' : WriterState),
    WInv hash c bs st → Writer.writeLoop hash fuel st = some (.ok st') →
    WInv hash c bs st' := by
  intro fuel
  induction fuel with
  | zero =>
    rintro ⟨fd, cc, bsz, P, es, off⟩ st' hinv h
    simp only [Writer.writeLoop] at h
    by_cases hg : bsz ≤ P.length
    · rw [if_pos hg] at h
      simp at h
    · rw [if_neg hg] at h
      simp only [Option.some.injEq, Except.ok.injEq] at h
      subst h
      exact hinv
  | succ fuel ih =>
    rintro ⟨fd, cc, bsz, P, es, off⟩ st' hinv h
    simp only [Writer.writeLoop] at h
    by_cases hg : bsz ≤ P.length
    · rw [if_pos hg] at h
      rcases hf : Writer.flushBlock hash ⟨fd, cc, bsz, P.drop bsz, es, off⟩
          (P.take bsz) with e | st1
      · rw [hf] at h
        simp at h
      · rw [hf] at h
        have hinv1 : WInv hash c bs ⟨fd, cc, bsz, P.drop bsz, es, off⟩ :=
          ⟨hinv.codec_eq, hinv.bs_eq, hinv.flen, hinv.chain, hinv.cksums⟩
        exact ih st1 st' (flushBlock_inv hash c bs hb _ _ _ hinv1 hf) h
    · rw [if_neg hg] at h
      simp only [Option.some.injEq, Except.ok.injEq] at h
      subst h
      exact hinv

theorem write_inv (hash : List Nat → Nat) (c : Codec) (bs : Nat)
    (hb : codecBounded c) (st st' : WriterState) (data : List Nat)
    (hinv : WInv hash c bs st)
    (h : Writer.write hash st data = some (.ok st')) :
    WInv hash c bs st' := by
  unfold Writer.write at h
  exact writeLoop_inv hash c bs hb _ _ _
    (WInv_set_pending hash c bs _ _ hinv) h

theorem reaches_inv (hash : List Nat → Nat) (c : Codec) (bs : Nat)
    (hb : codecBounded c) (st : WriterState) (h : Reaches hash c bs st) :
    WInv hash c bs st := by
  induction h with
  | create =>
    refine ⟨rfl, rfl, ?_, ?_, ?_⟩
    · simp [Writer.create, HEADER_SIZE]
    · simp [Writer.create, chainOK]
    · intro e he
      simp [Writer.create] at he
  | write st1 st2 data hr hw ih =>
    exact write_inv hash c bs hb st1 st2 data ih hw

theorem finishFlush_inv (hash : List Nat → Nat) (c : Codec) (bs : Nat)
    (hb : codecBounded c) (st st' : WriterState) (hinv : WInv hash c bs st)
    (h : Writer.finishFlush hash st = .ok st') : WInv hash c bs st' := by
  unfold Writer.finishFlush at h
  by_cases he : st.pending.isEmpty
  · rw [if_pos he] at h
    simp only [Except.ok.injEq] at h
    subst h
    exact hinv
  · rw [if_neg he] at h
    exact flushBlock_inv hash c bs hb _ _ _
      (WInv_set_pending hash c bs _ _ hinv) h

theorem chainOK_first (l : List BlockEntry) (s endv : Nat)
    (h : chainOK s l endv) (e : BlockEntry) (he : l[0]? = some e) :
    e.offset = s := by
  cases l with
  | nil => simp at he
  | cons x rest =>
    simp only [List.getElem?_cons_zero, Option.some.injEq] at he
    subst he
    exact h.1

theorem WInv_file_lower (hash : List Nat → Nat) (c : Codec) (bs : Nat)
    (st1 : WriterState) (hinv : WInv hash c bs st1) :
    HEADER_SIZE ≤ st1.fileData.length := by
  have h := chainOK_le st1.entries HEADER_SIZE st1.current_offset hinv.chain
  rw [hinv.flen]
  exact h

theorem finish_decomp (hash : List Nat → Nat) (st st1 : WriterState)
    (n : Nat) (F : List Nat)
    (hflush : Writer.finishFlush hash st = .ok st1)
    (hfin : Writer.finish hash st = .ok (n, F)) :
    n = st1.entries.length ∧
    F = Ancf1Header.toBytes
        { version := 1
          codec_id := st1.codec.id
          block_size := st1.block_size
          block_count := st1.entries.length
          flags := FLAG_HAS_CHECKSUM } ++
      (st1.fileData ++ (st1.entries.map BlockEntry.toBytes).flatten ++
        toLEBytes 8 st1.current_offset).drop HEADER_SIZE := by
  unfold Writer.finish at hfin
  rw [hflush] at hfin
  simp only [Except.ok.injEq, Prod.mk.injEq] at hfin
  exact ⟨hfin.1.symm, hfin.2.symm⟩

theorem finish_file_shape (hB fd J T : List Nat)
    (h56 : HEADER_SIZE ≤ fd.length) :
    hB ++ (fd ++ J ++ T).drop HEADER_SIZE =
      (hB ++ (fd.drop HEADER_SIZE ++ J)) ++ T := by
  rw [List.append_assoc fd J T, drop_append_of_le fd (J ++ T) HEADER_SIZE h56]
  simp [List.append_assoc]

theorem finish_file_shape2 (hB fd J T : List Nat)
    (h56 : HEADER_SIZE ≤ fd.length) :
    hB ++ (fd ++ J ++ T).drop HEADER_SIZE =
      hB ++ (fd.drop HEADER_SIZE ++ (J ++ T)) := by
  rw [List.append_assoc fd J T, drop_append_of_le fd (J ++ T) HEADER_SIZE h56]

theorem footer_slice (A : List Nat) (x : Nat) :
    ((A ++ toLEBytes 8 x).drop ((A ++ toLEBytes 8 x).length - 8)).take 8 =
      toLEBytes 8 x := by
  have hlen : (A ++ toLEBytes 8 x).length - 8 = A.length := by
    rw [List.length_append, length_toLEBytes]
    omega
  rw [hlen, drop_append_of_length A _ A.length rfl,
    List.take_of_length_le (by simp)]

theorem take_drop_prefix_mid (hB fd X : List Nat) (p b : Nat)
    (hBlen : hB.length = HEADER_SIZE) (hp : HEADER_SIZE ≤ p)
    (hfit : p + b ≤ fd.length) :
    ((hB ++ (fd.drop HEADER_SIZE ++ X)).drop p).take b =
      (fd.drop p).take b := by
  have h0 : p = HEADER_SIZE + (p - HEADER_SIZE) := by omega
  rw [h0, drop_append_add hB _ HEADER_SIZE (p - HEADER_SIZE) hBlen,
    take_drop_append (fd.drop HEADER_SIZE) X (p - HEADER_SIZE) b
      (by rw [List.length_drop]; omega)]
  have h1 : (fd.drop HEADER_SIZE).drop (p - HEADER_SIZE) =
      fd.drop (HEADER_SIZE + (p - HEADER_SIZE)) := by
    rw [List.drop_drop]
  rw [h1]

theorem constCodec_bounded : codecBounded constCodec := by
  intro raw comp side h
  simp only [constCodec, Option.some.injEq, Prod.mk.injEq] at h
  obtain ⟨h1, h2⟩ := h
  subst h1
  subst h2
  exact ⟨by norm_num, by norm_num⟩

theorem wReach : Reaches wHash constCodec 4 wSt1 :=
  Reaches.write (Writer.create constCodec 4) wSt1 [1, 2, 3, 4, 5]
    Reaches.create rfl

/-- C6: Index adjacency invariant.  For every writer state reached by a
sequence of writes (any codec whose outputs fit the on-disk length
fields) followed by the tail flush of `finish`, consecutive index
entries satisfy `offset + (2 + metadata_len if metadata_len > 0 else 0)
+ compressed_len = next offset` (equality, which implies the claimed
`≤`); for the last entry that same expression equals the `index_offset`
stored little-endian in the file's 8-byte footer; and entry 0 has
offset `HEADER_SIZE = 56`. -/
theorem C6_index_adjacency (hash : List Nat → Nat) (c : Codec) (bs : Nat)
    (st st1 : WriterState) (n : Nat) (F : List Nat)
    (hb : codecBounded c) (hreach : Reaches hash c bs st)
    (hflush : Writer.finishFlush hash st = .ok st1)
    (hfin : Writer.finish hash st = .ok (n, F))
    (hfit : st1.current_offset < 2 ^ 64) :
    (∀ (i : Nat) (e e' : BlockEntry), st1.entries[i]? = some e →
        st1.entries[i + 1]? = some e' →
        e.offset + padLen e + e.compressed_len = e'.offset) ∧
    (∀ e : BlockEntry, st1.entries[st1.entries.length - 1]? = some e →
        e.offset + padLen e + e.compressed_len =
          fromLEBytes ((F.drop (F.length - 8)).take 8)) ∧
    (∀ e : BlockEntry, st1.entries[0]? = some e → e.offset = HEADER_SIZE) := by
  have hinv := finishFlush_inv hash c bs hb st st1
    (reaches_inv hash c bs hb st hreach) hflush
  obtain ⟨hn, hF⟩ := finish_decomp hash st st1 n F hflush hfin
  refine ⟨?_, ?_, ?_⟩
  · intro i e e' h1 h2
    have h3 := chainOK_consecutive st1.entries HEADER_SIZE st1.current_offset
      hinv.chain i e e' h1 h2
    simp only [entryEnd, payloadPos, padLen] at h3 ⊢
    omega
  · intro e he
    have hend := chainOK_last_end st1.entries HEADER_SIZE st1.current_offset
      hinv.chain e he
    have h56 : HEADER_SIZE ≤ st1.fileData.length :=
      WInv_file_lower hash c bs st1 hinv
    rw [hF, finish_file_shape _ _ _ _ h56, footer_slice,
      fromLEBytes_toLEBytes_of_lt
        (show st1.current_offset < 2 ^ (8 * 8) from hfit)]
    simp only [entryEnd] at hend
    exact hend
  · intro e he
    exact chainOK_first st1.entries HEADER_SIZE st1.current_offset
      hinv.chain e he

/-- C6 witness: the two-block file written with `constCodec` at block
size 4: entry 0 ends exactly where entry 1 starts (57), the last entry
ends at the footer's `index_offset` (58), and entry 0 sits at offset
56. -/
theorem C6_index_adjacency_witness :
    ((56 : Nat) + padLen ⟨56, 1, 4, 0, 0⟩ + 1 = 57) ∧
    ((57 : Nat) + padLen ⟨57, 1, 1, 0, 0⟩ + 1 =
      fromLEBytes ((wF.drop (wF.length - 8)).take 8)) ∧
    ((56 : Nat) = HEADER_SIZE) := by
  have h := C6_index_adjacency wHash constCodec 4 wSt1 wSt2 2 wF
    constCodec_bounded wReach rfl rfl (by decide)
  exact ⟨h.1 0 ⟨56, 1, 4, 0, 0⟩ ⟨57, 1, 1, 0, 0⟩ rfl rfl,
    h.2.1 ⟨57, 1, 1, 0, 0⟩ rfl, h.2.2 ⟨56, 1, 4, 0, 0⟩ rfl⟩

/-- C5: Seal correctness.  After `finish` on a writer created with
codec `c` and block size `bs` (outputs fitting the on-disk fields, and
the header fields in machine range), the first 56 bytes of the file
decode to a header with version 1, `codec_id = c.id`,
`block_size = bs`, `block_count` equal to `finish`'s return value, and
`flags = FLAG_HAS_CHECKSUM`; and every recorded entry's checksum is the
hash of exactly the compressed payload bytes written for that block
(sliced from the final file past the sidecar and its 2-byte prefix). -/
theorem C5_seal_correctness (hash : List Nat → Nat) (c : Codec) (bs : Nat)
    (st st1 : WriterState) (n : Nat) (F : List Nat)
    (hb : codecBounded c) (hreach : Reaches hash c bs st)
    (hflush : Writer.finishFlush hash st = .ok st1)
    (hfin : Writer.finish hash st = .ok (n, F))
    (hid : c.id < 2 ^ 16) (hbs32 : bs < 2 ^ 32) (hn : n < 2 ^ 64) :
    Ancf1Header.fromBytes (F.take HEADER_SIZE) = .ok
      { version := 1
        codec_id := c.id
        block_size := bs
        block_count := n
        flags := FLAG_HAS_CHECKSUM } ∧
    (∀ e ∈ st1.entries,
      hash ((F.drop (e.offset + padLen e)).take e.compressed_len) =
        e.checksum) := by
  have hinv := finishFlush_inv hash c bs hb st st1
    (reaches_inv hash c bs hb st hreach) hflush
  obtain ⟨hneq, hF⟩ := finish_decomp hash st st1 n F hflush hfin
  subst hneq
  constructor
  · rw [hF, take_append_of_length _ _ _ (by simp [HEADER_SIZE]),
      hinv.codec_eq, hinv.bs_eq]
    exact Ancf1Header.fromBytes_toBytes_header _
      ⟨by norm_num, hid, hbs32, hn, by norm_num [FLAG_HAS_CHECKSUM]⟩
  · intro e hmem
    obtain ⟨hbd1, hbd2⟩ := chainOK_mem st1.entries HEADER_SIZE
      st1.current_offset hinv.chain e hmem
    have h56 : HEADER_SIZE ≤ st1.fileData.length :=
      WInv_file_lower hash c bs st1 hinv
    have hple : HEADER_SIZE ≤ e.offset + padLen e := by omega
    have hfit2 : e.offset + padLen e + e.compressed_len ≤
        st1.fileData.length := by
      rw [hinv.flen]
      simp only [entryEnd] at hbd2
      omega
    rw [hF, finish_file_shape2 _ _ _ _ h56,
      take_drop_prefix_mid _ _ _ _ _ (by simp [HEADER_SIZE]) hple hfit2]
    have hck := hinv.cksums e hmem
    simp only [payloadPos] at hck
    exact hck

/-- C5 witness: the sealed two-block `constCodec` file: its first 56
bytes decode to header `(1, 3, 4, 2, HAS_CHECKSUM)`, and the first
entry's stored checksum equals the hash of its payload slice. -/
theorem C5_seal_correctness_witness :
    Ancf1Header.fromBytes (wF.take HEADER_SIZE) = .ok
      { version := 1
        codec_id := 3
        block_size := 4
        block_count := 2
        flags := FLAG_HAS_CHECKSUM } ∧
    wHash ((wF.drop ((56 : Nat) + padLen ⟨56, 1, 4, 0, 0⟩)).take 1) = 0 := by
  have h := C5_seal_correctness wHash constCodec 4 wSt1 wSt2 2 wF
    constCodec_bounded wReach rfl rfl (by decide) (by decide) (by decide)
  exact ⟨h.1, h.2 ⟨56, 1, 4, 0, 0⟩ (List.mem_cons_self _ _)⟩

-- ── Reader invariants for `read_block` errors ─────────────────────────────
theorem readEntriesAux_length (file : List Nat) :
    ∀ (count pos : Nat) (es : List BlockEntry),
      readEntriesAux file pos count = .ok es → es.length = count := by
  intro count
  induction count with
  | zero =>
    intro pos es h
    simp only [readEntriesAux, Except.ok.injEq] at h
    subst h
    rfl
  | succ k ih =>
    intro pos es h
    rcases h1 : readExact file pos BLOCK_ENTRY_SIZE with e1 | buf
    · simp only [readEntriesAux, h1] at h
      exact absurd h (by simp)
    · rcases h2 : readEntriesAux file (pos + BLOCK_ENTRY_SIZE) k with e2 | rest
      · simp only [readEntriesAux, h1, h2] at h
        exact absurd h (by simp)
      · simp only [readEntriesAux, h1, h2, Except.ok.injEq] at h
        subst h
        simp [ih (pos + BLOCK_ENTRY_SIZE) rest h2]

/-- `Reader::open` postcondition: exactly `block_count` entries are
loaded. -/
theorem open_post (file : List Nat) (codec : Codec) (st : ReaderState)
    (h : Reader.open file codec = .ok st) :
    st.entries.length = st.header.block_count := by
  unfold Reader.open at h
  rcases h1 : readExact file 0 HEADER_SIZE with e1 | hbuf
  · simp only [h1] at h
    exact absurd h (by simp)
  rcases h2 : Ancf1Header.fromBytes hbuf with e2 | hdr
  · simp only [h1, h2] at h
    exact absurd h (by simp)
  simp only [h1, h2] at h
  by_cases hv : hdr.version ≠ 1
  · rw [if_pos hv] at h
    simp at h
  rw [if_neg hv] at h
  by_cases hcid : hdr.codec_id ≠ codec.id
  · rw [if_pos hcid] at h
    simp at h
  rw [if_neg hcid] at h
  rcases h3 : readExact file (file.length - 8) 8 with e3 | fbuf
  · simp only [h3] at h
    exact absurd h (by simp)
  simp only [h3] at h
  rcases h4 : readEntriesAux file (fromLEBytes fbuf) hdr.block_count
      with e4 | es
  · simp only [h4] at h
    exact absurd h (by simp)
  simp only [h4, Except.ok.injEq] at h
  subst h
  exact readEntriesAux_length file hdr.block_count (fromLEBytes fbuf) es h4

/-- The only error `read_exact` produces is `Io`. -/
theorem readExact_error (file : List Nat) (pos n : Nat) (e : AncfError)
    (h : readExact file pos n = .error e) : e = .ioError := by
  unfold readExact at h
  split at h
  · exact absurd h (by simp)
  · simp only [Except.error.injEq] at h
    exact h.symm

/-- When the index lookup succeeds, no branch of `read_block` produces
`OutOfRange`. -/
theorem read_block_some_ne_oor (hash : List Nat → Nat) (st : ReaderState)
    (idx : Nat) (e : BlockEntry) (hidx : st.entries[idx]? = some e) :
    (Reader.read_block hash st idx).fst ≠ .error .outOfRange := by
  simp only [Reader.read_block, hidx, Reader.finishBlock]
  repeat' split
  all_goals (try (rename_i heq ; rw [readExact_error _ _ _ _ heq]))
  all_goals simp

/-- Error staging of the payload half of `read_block`. -/
theorem finishBlock_cases (hash : List Nat → Nat) (st : ReaderState)
    (e : BlockEntry) (sc : List Nat)
    (hb : payloadPos e + e.compressed_len ≤ st.fileData.length) :
    ((st.header.hasFlag FLAG_HAS_CHECKSUM = true →
        hash ((st.fileData.drop (payloadPos e)).take e.compressed_len) ≠
          e.checksum →
        (Reader.finishBlock hash st e sc (payloadPos e)).fst =
          .error .checksumMismatch) ∧
     ((st.header.hasFlag FLAG_HAS_CHECKSUM = true →
         hash ((st.fileData.drop (payloadPos e)).take e.compressed_len) =
           e.checksum) →
      ∀ raw : List Nat,
        st.codec.decompress_block
            ((st.fileData.drop (payloadPos e)).take e.compressed_len) sc =
          some raw →
        ((raw.length ≠ e.raw_len →
            (Reader.finishBlock hash st e sc (payloadPos e)).fst =
              .error .sizeMismatch) ∧
         (raw.length = e.raw_len →
            (Reader.finishBlock hash st e sc (payloadPos e)).fst =
              .ok raw)))) := by
  have hpay : readExact st.fileData (payloadPos e) e.compressed_len =
      .ok ((st.fileData.drop (payloadPos e)).take e.compressed_len) := by
    unfold readExact
    rw [if_pos hb]
  simp only [Reader.finishBlock, hpay]
  constructor
  · intro hflag hne
    rw [if_pos ⟨hflag, hne⟩]
  · intro hok raw hdec
    rw [if_neg (fun hand => hand.2 (hok hand.1))]
    simp only [hdec]
    constructor
    · intro hne
      rw [if_pos hne]
    · intro heq
      rw [if_neg (by simp [heq])]

/-- C3: `read_block` error conditions on any opened reader.
`read_block i` fails with `OutOfRange` iff `i ≥ block_count`; for an
in-range entry whose on-disk representation fits the file: when
`metadata_len > 0` it fails with `MetadataLenMismatch` if the on-disk
2-byte prefix decodes to a different value; once the metadata stage
passes, it fails with `ChecksumMismatch` if the checksum flag is set
and the recomputed hash of the payload differs from the stored one;
once the checksum passes and the codec decompresses, it fails with
`SizeMismatch` iff the decompressed length differs from `raw_len`, and
otherwise returns the decompressed bytes. -/
theorem C3_read_block_errors (hash : List Nat → Nat) (file : List Nat)
    (codec : Codec) (st : ReaderState)
    (hopen : Reader.open file codec = .ok st) (idx : Nat) :
    ((Reader.read_block hash st idx).fst = .error .outOfRange ↔
      Reader.block_count st ≤ idx) ∧
    (∀ e : BlockEntry, st.entries[idx]? = some e →
      entryEnd e ≤ st.fileData.length →
      ((0 < e.metadata_len →
          fromLEBytes ((st.fileData.drop e.offset).take 2) ≠ e.metadata_len →
          (Reader.read_block hash st idx).fst =
            .error .metadataLenMismatch) ∧
       ((0 < e.metadata_len →
           fromLEBytes ((st.fileData.drop e.offset).take 2) = e.metadata_len) →
        ((st.header.hasFlag FLAG_HAS_CHECKSUM = true →
            hash ((st.fileData.drop (payloadPos e)).take e.compressed_len) ≠
              e.checksum →
            (Reader.read_block hash st idx).fst =
              .error .checksumMismatch) ∧
         ((st.header.hasFlag FLAG_HAS_CHECKSUM = true →
             hash ((st.fileData.drop (payloadPos e)).take e.compressed_len) =
               e.checksum) →
          ∀ raw : List Nat,
            st.codec.decompress_block
                ((st.fileData.drop (payloadPos e)).take e.compressed_len)
                (if 0 < e.metadata_len then
                  (st.fileData.drop (e.offset + 2)).take e.metadata_len
                 else []) = some raw →
            ((raw.length ≠ e.raw_len →
                (Reader.read_block hash st idx).fst =
                  .error .sizeMismatch) ∧
             (raw.length = e.raw_len →
                (Reader.read_block hash st idx).fst = .ok raw))))))) := by
  have hcount := open_post file codec st hopen
  constructor
  · constructor
    · intro hoor
      by_contra hlt
      push_neg at hlt
      have hlen : idx < st.entries.length := by
        unfold Reader.block_count at hlt
        omega
      exact read_block_some_ne_oor hash st idx st.entries[idx]
        (List.getElem?_eq_getElem hlen) hoor
    · intro hge
      have hnone : st.entries[idx]? = none := by
        apply List.getElem?_eq_none
        unfold Reader.block_count at hge
        omega
      simp only [Reader.read_block, hnone]
  · intro e hidx hbound
    simp only [Reader.read_block, hidx]
    by_cases hml : 0 < e.metadata_len
    · rw [if_pos hml]
      have hpad : padLen e = 2 + e.metadata_len := by
        unfold padLen
        rw [if_pos hml]
      have hb2 : e.offset + 2 ≤ st.fileData.length := by
        unfold entryEnd at hbound
        rw [hpad] at hbound
        omega
      have hpre : readExact st.fileData e.offset 2 =
          .ok ((st.fileData.drop e.offset).take 2) := by
        unfold readExact
        rw [if_pos hb2]
      simp only [hpre]
      constructor
      · intro _ hne
        rw [if_pos hne]
      · intro hmeta
        rw [if_pos hml]
        have heq := hmeta hml
        rw [if_neg (by simp [heq])]
        have hb3 : e.offset + 2 + e.metadata_len ≤ st.fileData.length := by
          unfold entryEnd at hbound
          rw [hpad] at hbound
          omega
        have hsc : readExact st.fileData (e.offset + 2) e.metadata_len =
            .ok ((st.fileData.drop (e.offset + 2)).take e.metadata_len) := by
          unfold readExact
          rw [if_pos hb3]
        simp only [hsc]
        have hpp : e.offset + 2 + e.metadata_len = payloadPos e := by
          unfold payloadPos
          rw [hpad]
          omega
        rw [hpp]
        exact finishBlock_cases hash st e _ hbound
    · rw [if_neg hml]
      constructor
      · intro hml'
        exact absurd hml' hml
      · intro _
        rw [if_neg hml]
        have hpp : e.offset = payloadPos e := by
          unfold payloadPos padLen
          rw [if_neg hml]
          omega
        rw [hpp]
        exact finishBlock_cases hash st e [] hbound

set_option maxRecDepth 8192 in
/-- C3 witness: on the concrete two-block `constCodec` file,
`read_block 2` is `OutOfRange` by the proved equivalence, and
`read_block 0` hits `SizeMismatch` (the constant codec expands `[7]`
to 1 byte while the entry records `raw_len = 4`). -/
theorem C3_read_block_errors_witness :
    ((Reader.read_block wHash wRd 2).fst = .error .outOfRange ↔
      Reader.block_count wRd ≤ 2) ∧
    (Reader.read_block wHash wRd 0).fst = .error .sizeMismatch := by
  have h2 := C3_read_block_errors wHash wF constCodec wRd rfl 2
  have h0 := C3_read_block_errors wHash wF constCodec wRd rfl 0
  refine ⟨h2.1, ?_⟩
  have hstage := h0.2 ⟨56, 1, 4, 0, 0⟩ rfl (by decide)
  have hCD := hstage.2 (fun hcontr => absurd hcontr (by decide))
  have hD := hCD.2 (fun _ => rfl) [7] rfl
  exact hD.1 (by decide)

-- ── `Reader::open` validation order ───────────────────────────────────────
theorem take_of_take_slice {α : Type} (l : List α) (a b n : Nat)
    (h : a + b ≤ n) : ((l.take n).drop a).take b = (l.drop a).take b := by
  rw [List.drop_take, List.take_take]
  congr 1
  omega

/-- C7: `Reader::open` validation.  On any file at least `HEADER_SIZE`
bytes long: it fails with `InvalidMagic` when the first 14 bytes differ
from the magic (regardless of the rest of the file); with the magic
right, it fails with `UnsupportedVersion` when the decoded version is
not 1 (regardless of the codec id); and with magic and version right,
it fails with `CodecMismatch` when the decoded codec id differs from
the supplied codec's.  Each error is determined by the header bytes
alone — no footer or index entry is consulted — which is the claimed
ordering of the checks. -/
theorem C7_open_validation (file : List Nat) (codec : Codec)
    (hlen : HEADER_SIZE ≤ file.length) :
    (file.take 14 ≠ MAGIC →
      Reader.open file codec = .error .invalidMagic) ∧
    (file.take 14 = MAGIC →
      fromLEBytes ((file.drop 14).take 2) ≠ 1 →
      Reader.open file codec = .error .unsupportedVersion) ∧
    (file.take 14 = MAGIC →
      fromLEBytes ((file.drop 14).take 2) = 1 →
      fromLEBytes ((file.drop 16).take 2) ≠ codec.id →
      Reader.open file codec = .error .codecMismatch) := by
  have hre : readExact file 0 HEADER_SIZE = .ok (file.take HEADER_SIZE) := by
    unfold readExact
    rw [if_pos (by omega), List.drop_zero]
  have ht14 : (file.take HEADER_SIZE).take 14 = file.take 14 := by
    rw [List.take_take]
    norm_num [HEADER_SIZE]
  have hv2 : ((file.take HEADER_SIZE).drop 14).take 2 =
      (file.drop 14).take 2 :=
    take_of_take_slice file 14 2 HEADER_SIZE (by norm_num [HEADER_SIZE])
  have hc2 : ((file.take HEADER_SIZE).drop 16).take 2 =
      (file.drop 16).take 2 :=
    take_of_take_slice file 16 2 HEADER_SIZE (by norm_num [HEADER_SIZE])
  refine ⟨?_, ?_, ?_⟩
  · intro hmag
    have hfb : Ancf1Header.fromBytes (file.take HEADER_SIZE) =
        .error .invalidMagic := by
      unfold Ancf1Header.fromBytes
      rw [ht14, if_neg hmag]
    simp only [Reader.open, hre, hfb]
  · intro hmag hver
    have hfb : Ancf1Header.fromBytes (file.take HEADER_SIZE) = .ok
        { version := fromLEBytes ((file.drop 14).take 2)
          codec_id := fromLEBytes ((file.drop 16).take 2)
          block_size :=
            fromLEBytes (((file.take HEADER_SIZE).drop 18).take 4)
          block_count :=
            fromLEBytes (((file.take HEADER_SIZE).drop 22).take 8)
          flags :=
            fromLEBytes (((file.take HEADER_SIZE).drop 30).take 8) } := by
      unfold Ancf1Header.fromBytes
      rw [ht14, if_pos hmag, hv2, hc2]
    simp only [Reader.open, hre, hfb]
    rw [if_pos hver]
  · intro hmag hver hcid
    have hfb : Ancf1Header.fromBytes (file.take HEADER_SIZE) = .ok
        { version := fromLEBytes ((file.drop 14).take 2)
          codec_id := fromLEBytes ((file.drop 16).take 2)
          block_size :=
            fromLEBytes (((file.take HEADER_SIZE).drop 18).take 4)
          block_count :=
            fromLEBytes (((file.take HEADER_SIZE).drop 22).take 8)
          flags :=
            fromLEBytes (((file.take HEADER_SIZE).drop 30).take 8) } := by
      unfold Ancf1Header.fromBytes
      rw [ht14, if_pos hmag, hv2, hc2]
    simp only [Reader.open, hre, hfb]
    rw [if_neg (by simp [hver]), if_pos hcid]

set_option maxRecDepth 8192 in
/-- C7 witness: a 56-byte zero file is rejected with `InvalidMagic`,
and the valid `constCodec` file is rejected with `CodecMismatch` when
opened with the passthrough codec (id 0 vs stored 3). -/
theorem C7_open_validation_witness :
    Reader.open (List.replicate 56 0) passThroughCodec =
      .error .invalidMagic ∧
    Reader.open wF passThroughCodec = .error .codecMismatch := by
  refine ⟨(C7_open_validation (List.replicate 56 0) passThroughCodec
      (by norm_num [HEADER_SIZE])).1 (by decide), ?_⟩
  exact (C7_open_validation wF passThroughCodec (by decide)).2.2
    (by decide) (by decide) (by decide)

/-- C8: a failed `read_block` does not poison the reader.  If
`read_block i` fails, the resulting state keeps the header, index
entries, codec (and file contents) unchanged — only the file cursor
moved — and a subsequent `read_block j` on that state returns exactly
what it would have returned on the original reader. -/
theorem C8_reader_not_poisoned (hash : List Nat → Nat) (st : ReaderState)
    (i j : Nat) (e : AncfError)
    (_hfail : (Reader.read_block hash st i).fst = .error e) :
    ((Reader.read_block hash st i).snd.header = st.header ∧
     (Reader.read_block hash st i).snd.entries = st.entries ∧
     (Reader.read_block hash st i).snd.codec = st.codec ∧
     (Reader.read_block hash st i).snd.fileData = st.fileData) ∧
    (Reader.read_block hash (Reader.read_block hash st i).snd j).fst =
      (Reader.read_block hash st j).fst := by
  obtain ⟨h1, h2, h3, h4⟩ := read_block_snd_fields hash st i
  refine ⟨⟨h2, h3, h4, h1⟩, ?_⟩
  have hs : (Reader.read_block hash st i).snd =
      setPos st (Reader.read_block hash st i).snd.pos :=
    ReaderState.eq_set_pos h1 h2 h3 h4
  rw [hs, read_block_fst_pos]

set_option maxRecDepth 8192 in
/-- C8 witness: on the `constCodec` reader, `read_block 0` fails with
`SizeMismatch`, yet the state is unchanged apart from the cursor and
`read_block 1` returns the same result as on the fresh reader. -/
theorem C8_reader_not_poisoned_witness :
    ((Reader.read_block wHash wRd 0).snd.header = wRd.header ∧
     (Reader.read_block wHash wRd 0).snd.entries = wRd.entries ∧
     (Reader.read_block wHash wRd 0).snd.codec = wRd.codec ∧
     (Reader.read_block wHash wRd 0).snd.fileData = wRd.fileData) ∧
    (Reader.read_block wHash (Reader.read_block wHash wRd 0).snd 1).fst =
      (Reader.read_block wHash wRd 1).fst :=
  C8_reader_not_poisoned wHash wRd 0 1 .sizeMismatch rfl

/-- C9: format primitive round-trip and byte layout.  For every header
and entry with fields in the machine ranges of their Rust types,
`from_bytes (to_bytes x) = x`; `to_bytes` produces exactly 56
(resp. 32) bytes, placing each field little-endian at the documented
offset, with the reserved bytes zero. -/
theorem C9_format_roundtrip (h : Ancf1Header) (e : BlockEntry)
    (hh : h.InRange) (he : e.InRange) :
    Ancf1Header.fromBytes h.toBytes = .ok h ∧
    BlockEntry.fromBytes e.toBytes = e ∧
    h.toBytes.length = HEADER_SIZE ∧
    e.toBytes.length = BLOCK_ENTRY_SIZE ∧
    h.toBytes.take 14 = MAGIC ∧
    (h.toBytes.drop 14).take 2 = toLEBytes 2 h.version ∧
    (h.toBytes.drop 16).take 2 = toLEBytes 2 h.codec_id ∧
    (h.toBytes.drop 18).take 4 = toLEBytes 4 h.block_size ∧
    (h.toBytes.drop 22).take 8 = toLEBytes 8 h.block_count ∧
    (h.toBytes.drop 30).take 8 = toLEBytes 8 h.flags ∧
    h.toBytes.drop 38 = List.replicate 18 0 ∧
    e.toBytes.take 8 = toLEBytes 8 e.offset ∧
    (e.toBytes.drop 8).take 4 = toLEBytes 4 e.compressed_len ∧
    (e.toBytes.drop 12).take 4 = toLEBytes 4 e.raw_len ∧
    (e.toBytes.drop 16).take 8 = toLEBytes 8 e.checksum ∧
    (e.toBytes.drop 24).take 2 = toLEBytes 2 e.metadata_len ∧
    e.toBytes.drop 26 = List.replicate 6 0 := by
  refine ⟨Ancf1Header.fromBytes_toBytes_header h hh, BlockEntry.fromBytes_toBytes_entry e he,
    by simp [HEADER_SIZE], by simp [BLOCK_ENTRY_SIZE],
    ?_, ?_, ?_, ?_, ?_, ?_, ?_, ?_, ?_, ?_, ?_, ?_, ?_⟩
  all_goals
    norm_num [Ancf1Header.toBytes, BlockEntry.toBytes, List.append_assoc,
      List.take_append_eq_append_take, List.drop_append_eq_append_drop,
      length_toLEBytes, length_MAGIC, List.take_of_length_le,
      List.drop_eq_nil_of_le]

/-- C9 witness: a concrete header and entry round-trip. -/
theorem C9_format_roundtrip_witness :
    Ancf1Header.fromBytes (Ancf1Header.toBytes ⟨1, 0, 4, 2, 1⟩) =
      .ok ⟨1, 0, 4, 2, 1⟩ ∧
    BlockEntry.fromBytes (BlockEntry.toBytes ⟨56, 1, 4, 0, 0⟩) =
      ⟨56, 1, 4, 0, 0⟩ := by
  have h := C9_format_roundtrip ⟨1, 0, 4, 2, 1⟩ ⟨56, 1, 4, 0, 0⟩
    ⟨by norm_num, by norm_num, by norm_num, by norm_num, by norm_num⟩
    ⟨by norm_num, by norm_num, by norm_num, by norm_num, by norm_num⟩
  exact ⟨h.1, h.2.1⟩

-- ── Termination of `write` ────────────────────────────────────────────────
/-- With `block_size = 0` the drain loop never exits: the guard
`pending.len() ≥ 0` always holds and each iteration drains zero bytes.
The codec hypothesis says compressing an empty block succeeds (true of
the passthrough codec), so no iteration aborts with an error either. -/
theorem writeLoop_zero_bs (hash : List Nat → Nat) (c : Codec)
    (hc : c.compress_block [] ≠ none) :
    ∀ (fuel : Nat) (st : WriterState), st.codec = c → st.block_size = 0 →
      Writer.writeLoop hash fuel st = none := by
  intro fuel
  induction fuel with
  | zero =>
    rintro ⟨fd, cc, bsz, P, es, off⟩ hcodec hbs
    simp only at hcodec hbs
    subst hbs
    simp only [Writer.writeLoop, if_pos (Nat.zero_le P.length)]
  | succ fuel ih =>
    rintro ⟨fd, cc, bsz, P, es, off⟩ hcodec hbs
    simp only at hcodec hbs
    subst hbs
    simp only [Writer.writeLoop, if_pos (Nat.zero_le P.length),
      List.take_zero, List.drop_zero]
    unfold Writer.flushBlock
    simp only
    rw [hcodec]
    rcases hcm : c.compress_block [] with _ | ⟨comp, side⟩
    · exact absurd hcm hc
    · exact ih _ rfl rfl

/-- C10: write termination requires a positive block size.
`Writer::create` accepts `block_size = 0` (the state simply records
it); on any passthrough writer with `block_size = 0`, the drain loop
returns `none` at every fuel — the faithful image of non-termination —
so `write` never terminates, for input of any length including empty.
For every `block_size = B > 0` (fitting `u32`), `write` terminates and
flushes exactly `⌊pending_len / B⌋` blocks, appending that many index
entries. -/
theorem C10_write_termination (hash : List Nat → Nat) (bs : Nat)
    (st : WriterState) (data : List Nat) :
    (Writer.create passThroughCodec 0).block_size = 0 ∧
    (∀ (fuel : Nat) (st0 : WriterState), st0.codec = passThroughCodec →
      st0.block_size = 0 → Writer.writeLoop hash fuel st0 = none) ∧
    (∀ (st0 : WriterState) (data0 : List Nat),
      st0.codec = passThroughCodec → st0.block_size = 0 →
      Writer.write hash st0 data0 = none) ∧
    (st.codec = passThroughCodec → st.block_size = bs → 0 < bs →
      bs < 2 ^ 32 →
      Writer.write hash st data = some (.ok
        { fileData := st.fileData ++ (st.pending ++ data).take
            (bs * ((st.pending ++ data).length / bs))
          codec := passThroughCodec
          block_size := bs
          pending := (st.pending ++ data).drop
            (bs * ((st.pending ++ data).length / bs))
          entries := st.entries ++ mkEntries hash bs st.current_offset
            (st.pending ++ data) ((st.pending ++ data).length / bs)
          current_offset := st.current_offset +
            bs * ((st.pending ++ data).length / bs) }) ∧
      (st.entries ++ mkEntries hash bs st.current_offset
          (st.pending ++ data) ((st.pending ++ data).length / bs)).length =
        st.entries.length + (st.pending ++ data).length / bs) := by
  have hzero : ∀ (fuel : Nat) (st0 : WriterState),
      st0.codec = passThroughCodec → st0.block_size = 0 →
      Writer.writeLoop hash fuel st0 = none :=
    writeLoop_zero_bs hash passThroughCodec (by simp [passThroughCodec])
  refine ⟨rfl, hzero, ?_, ?_⟩
  · intro st0 data0 hcodec hbs
    unfold Writer.write
    exact hzero _ _ (by simp [hcodec]) (by simp [hbs])
  · intro hcodec hbs hpos hbs32
    constructor
    · unfold Writer.write
      rw [hbs]
      have hd := writeLoop_drain hash (st.pending.length + data.length)
        { st with pending := st.pending ++ data }
        (by simp [hcodec]) (by simpa [hbs] using hpos)
        (by simpa [hbs] using hbs32) (by simp)
      simp only at hd
      rw [hbs] at hd
      exact hd
    · rw [List.length_append, length_mkEntries]

/-- C10 witness: creating with block size 0 is accepted, the drain loop
diverges there (`none` at fuel 3, on empty input), while at block size
2 a 3-byte write flushes exactly one block. -/
theorem C10_write_termination_witness :
    (Writer.create passThroughCodec 0).block_size = 0 ∧
    Writer.writeLoop wHash 3 (Writer.create passThroughCodec 0) = none ∧
    Writer.write wHash (Writer.create passThroughCodec 0) [] = none ∧
    ((Writer.create passThroughCodec 2).entries ++ mkEntries wHash 2
        (Writer.create passThroughCodec 2).current_offset
        ((Writer.create passThroughCodec 2).pending ++ [1, 2, 3])
        (((Writer.create passThroughCodec 2).pending ++ [1, 2, 3]).length
          / 2)).length =
      (Writer.create passThroughCodec 2).entries.length +
        ((Writer.create passThroughCodec 2).pending ++ [1, 2, 3]).length
          / 2 := by
  have h := C10_write_termination wHash 2 (Writer.create passThroughCodec 2)
    [1, 2, 3]
  exact ⟨h.1, h.2.1 3 (Writer.create passThroughCodec 0) rfl rfl,
    h.2.2.1 (Writer.create passThroughCodec 0) [] rfl rfl,
    (h.2.2.2 rfl rfl (by decide) (by decide)).2⟩

end Ancf
